import Mathlib

/-!
Verification development for the `deck` package (`deck.go`)

A shallow embedding of the playing-card deck library.

* `Suit` and `Rank` are Go `uint8` values, embedded as `Fin 256` (whose
  addition wraps exactly like `uint8`).
* `Card.Point` and every `int` argument are embedded as `Int`; the only place
  where a Go `int` can overflow is the accumulation in `Points`, which is
  reduced into the 64-bit two's-complement range by `wrapInt`.
* A `*Deck` receiver becomes explicit state passing: an operation takes the
  deck and returns the new deck.
* A run-time panic (index or slice bounds out of range) is the value `none`.
* Calls into Go's standard library are made explicit: `sort.Slice` is a
  parameter of the sorting options, constrained by its documented contract,
  and `pdqSlice` embeds its implementation (Go 1.19 and later);
  `rand.Shuffle` is its Fisher-Yates loop over the package's swap closure,
  with the random draws as a parameter; the generated `String` methods of
  `Rank` and `Suit` are parameters of `Card.String`.
-/

namespace deck

/-! ## Data model -/

/-- Suit of a card: `type Suit uint8`. -/
abbrev Suit := Fin 256

/-- Rank of a card: `type Rank uint8`. -/
abbrev Rank := Fin 256

def Spade : Suit := 0
def Diamond : Suit := 1
def Club : Suit := 2
def Heart : Suit := 3

/-- The array `suits = [...]Suit{Spade, Diamond, Club, Heart}`. -/
def suits : List Suit := [Spade, Diamond, Club, Heart]

def Joker : Rank := 0
def Ace : Rank := 1
def Two : Rank := 2
def Three : Rank := 3
def Four : Rank := 4
def Five : Rank := 5
def Six : Rank := 6
def Seven : Rank := 7
def Eight : Rank := 8
def Nine : Rank := 9
def Ten : Rank := 10
def Jack : Rank := 11
def Queen : Rank := 12
def King : Rank := 13

def MinRank : Rank := Ace
def MaxRank : Rank := King

/-- Card with rank and suit. A field left out of a Go composite literal takes
its zero value (`false`, `0`). -/
structure Card where
  Rank : Rank
  Suit : Suit
  Visible : Bool
  Point : Int
  deriving DecidableEq, Repr

/-- Deck is constructed from multiple cards: `type Deck []Card`. -/
abbrev Deck := List Card

/-- The Go type `Option`, `func(d *Deck)`: a deck transformer. -/
abbrev Opt := Deck → Deck

/-! ## Machine integers and loops -/

/-- Smallest value of a 64-bit Go `int`. -/
def minInt : Int := -(2 ^ 63)

/-- Largest value of a 64-bit Go `int`. -/
def maxInt : Int := 2 ^ 63 - 1

/-- Result of a Go `int` operation whose exact value is `x`: the
representative of `x` modulo `2^64` in the range `minInt .. maxInt`. -/
def wrapInt (x : Int) : Int := (x + 2 ^ 63) % 2 ^ 64 - 2 ^ 63

/-- The loop `for i := lo; ...; i++ { s = body i s }` run for `k` iterations,
starting with the loop variable at `i`. -/
def forCount {σ ι : Type} (succ : ι → ι) (body : ι → σ → σ) : Nat → ι → σ → σ
  | 0, _, s => s
  | k + 1, i, s => forCount succ body k (succ i) (body i s)

/-- Loop `for i := lo; i < hi; i++ { s = body i s }` over Go `int`s: the body
runs `hi - lo` times when `lo < hi` and not at all otherwise. -/
def forInt {σ : Type} (lo hi : Int) (body : Int → σ → σ) (s : σ) : σ :=
  forCount (fun i => i + 1) body (hi - lo).toNat lo s

/-! ## Scoring and drawing -/

/-- Points returns sum of points from provided cards. -/
def Points (cards : List Card) : Int :=
  cards.foldl (fun res card => if card.Visible then wrapInt (res + card.Point) else res) 0

/-- The loop of `Draw`: `k` more iterations with loop variable `i`, each
appending `(*d)[i]`, which panics when `i` is not an index of the deck. -/
def drawLoop (d : Deck) : Nat → Nat → List Card → Option (List Card)
  | 0, _, cards => some cards
  | k + 1, i, cards =>
    match d[i]? with
    | none => none
    | some c => drawLoop d k (i + 1) (cards ++ [c])

/-- The slice expression `(*d)[n:]`, which panics unless `0 ≤ n ≤ len(*d)`. -/
def sliceFrom (d : Deck) (n : Int) : Option Deck :=
  if 0 ≤ n ∧ n ≤ (d.length : Int) then some (d.drop n.toNat) else none

/-- Draw draws first n cards from the deck and removes those cards for it.
Returns the drawn cards and the deck left behind, or `none` on a panic. -/
def Draw (d : Deck) (n : Int) : Option (List Card × Deck) :=
  match drawLoop d n.toNat 0 [] with
  | none => none
  | some cards =>
    match sliceFrom d n with
    | none => none
    | some rest => some (cards, rest)

/-! ## Construction -/

/-- The face ranks test `card.Rank == Jack || card.Rank == Queen || card.Rank == King`. -/
def isFace (r : Rank) : Bool := r == Jack || r == Queen || r == King

/-- Assignment of the default points, in place over the whole deck. -/
def defaultPoints (d : Deck) : Deck :=
  d.map (fun card =>
    if isFace card.Rank then { card with Point := (card.Rank.val : Int) + 1 }
    else { card with Point := (card.Rank.val : Int) })

/-- The nested loops of `New`: for each suit, ranks `MinRank` to `MaxRank`
inclusive, appending `Card{Rank: i, Suit: suit, Visible: true}`. -/
def buildCards : Deck :=
  suits.foldl (fun deck suit =>
    forCount (fun (i : Rank) => i + 1)
      (fun i deck => deck ++ [{ Rank := i, Suit := suit, Visible := true, Point := 0 }])
      (MaxRank.val + 1 - MinRank.val) MinRank deck) []

/-- New creates a new deck of playing cards. -/
def New (opts : List Opt) : Deck :=
  opts.foldl (fun deck opt => opt deck) (defaultPoints buildCards)

/-! ## Options -/

/-- Jokers adds n number of jokers to the deck. -/
def Jokers (n : Int) : Opt := fun d =>
  forInt 0 n (fun _ d => d ++ [{ Rank := Joker, Suit := 0, Visible := false, Point := 0 }]) d

/-- Linear search of `rank` in `ranks`. -/
def contains (ranks : List Rank) (rank : Rank) : Bool :=
  match ranks with
  | [] => false
  | v :: vs => if v = rank then true else contains vs rank

/-- Without creates a deck without specified cards. -/
def Without (ranks : List Rank) : Opt := fun d =>
  d.foldl (fun deck v =>
    if contains ranks v.Rank then deck
    else deck ++ [{ Rank := v.Rank, Suit := v.Suit, Visible := false, Point := 0 }]) []

/-- Size n determines of how many decks will the deck be formed. -/
def Size (n : Int) : Opt := fun d =>
  forInt 1 n (fun _ d => d ++ New []) d

/-! ## Point assignment -/

/-- FacePoints sets n points to all Face cards (Jack, Queen, King). -/
def FacePoints (n : Int) (d : Deck) : Deck :=
  d.map (fun card =>
    if card.Rank = Jack ∨ card.Rank = Queen ∨ card.Rank = King then { card with Point := n }
    else card)

/-- RankPoints sets n points for all cards of rank r. -/
def RankPoints (r : Rank) (n : Int) (d : Deck) : Deck :=
  d.map (fun card => if card.Rank = r then { card with Point := n } else card)

/-- SuitPoints sets n points for all cards of suit s. -/
def SuitPoints (s : Suit) (n : Int) (d : Deck) : Deck :=
  d.map (fun card => if card.Suit = s then { card with Point := n } else card)

/-- AddPoints sets n points to a card with rank r and suit s. -/
def AddPoints (r : Rank) (s : Suit) (n : Int) (d : Deck) : Deck :=
  d.map (fun card =>
    if r = Joker ∧ card.Rank = r then { card with Point := n }
    else if card.Rank = r ∧ card.Suit = s then { card with Point := n }
    else card)

/-! ## Sort key -/

/-- The key of the default order: `int(c.Suit)*int(MaxRank) + int(c.Rank)`. -/
def defSort (c : Card) : Int :=
  (c.Suit.val : Int) * (MaxRank.val : Int) + (c.Rank.val : Int)

/-! ## Sorting -/

/-- What a factory `func(d *Deck) func(i, j int) bool` amounts to: a predicate
on two positions of the deck that is behind the pointer when it is called. -/
abbrev LessFunc := Deck → Nat → Nat → Bool

/-- The factory `less`: `defSort((*d)[i]) < defSort((*d)[j])`. A position that
is not an index of the deck would panic; `sort.Slice` passes indexes only, and
the embedding answers `false` elsewhere. -/
def less : LessFunc := fun d i j =>
  match d[i]?, d[j]? with
  | some a, some b => decide (defSort a < defSort b)
  | _, _ => false

/-- The factory `descending` of the tests:
`defSort((*d)[i]) > defSort((*d)[j])`. -/
def descending : LessFunc := fun d i j =>
  match d[i]?, d[j]? with
  | some a, some b => decide (defSort a > defSort b)
  | _, _ => false

/-- Go's `sort.Slice`, of the standard library and not of this package, taken
as a parameter: `sortSlice x less` is the slice `x` after
`sort.Slice(x, less)`. -/
abbrev SliceSorter := Deck → LessFunc → Deck

/-- Sort with custom Less function (the option `Sort` of the package). -/
def SortWith (sortSlice : SliceSorter) (less : LessFunc) : Opt := fun d =>
  sortSlice d less

/-- DefaultSort sorts by suit in ascending order. -/
def DefaultSort (sortSlice : SliceSorter) : Opt := fun d =>
  sortSlice d less

/-! ## Shuffling -/

/-- The closure handed to `rand.Shuffle`:
`deck[i], deck[j] = deck[j], deck[i]`; `none` is the index panic. -/
def swapCards (deck : Deck) (i j : Nat) : Option Deck :=
  match deck[i]?, deck[j]? with
  | some a, some b => some ((deck.set i b).set j a)
  | _, _ => none

/-- Go's `rand.Shuffle(n, swap)`, of the standard library: the Fisher-Yates
loop `for i := n - 1; i > 0; i-- { j := <draw in [0, i]>; swap(i, j) }`, here
entered with the loop variable at `i`. The random source is the parameter
`src`: the draw of step `i` is `src i` reduced into `[0, i]`. -/
def randShuffle (src : Nat → Nat) : Nat → Deck → Option Deck
  | 0, deck => some deck
  | i + 1, deck =>
    match swapCards deck (i + 1) (src (i + 1) % (i + 2)) with
    | none => none
    | some deck2 => randShuffle src i deck2

/-- The body of the option `Shuffle`: `rand.Shuffle(len(deck), swap)`, or
`none` on a panic. -/
def shuffleRun (src : Nat → Nat) (d : Deck) : Option Deck :=
  randShuffle src (d.length - 1) d

/-- Shuffle shuffles the deck. As an option it is total: the run never
panics, so the deck is never left as it was for that reason. -/
def Shuffle (src : Nat → Nat) : Opt := fun d =>
  match shuffleRun src d with
  | some d2 => d2
  | none => d

/-! ## Display -/

/-- Modelled from the spec: the generated method `Rank.String` (the output of
`stringer -type=Suit,Rank` is not among the sources), which prints a rank by
the name of its constant, as the display examples show ("King", "Ace", "Ten",
"Jack", "Joker"), and any other value as `Rank(n)`. -/
def rankName (r : Rank) : String :=
  match r.val with
  | 0 => "Joker"
  | 1 => "Ace"
  | 2 => "Two"
  | 3 => "Three"
  | 4 => "Four"
  | 5 => "Five"
  | 6 => "Six"
  | 7 => "Seven"
  | 8 => "Eight"
  | 9 => "Nine"
  | 10 => "Ten"
  | 11 => "Jack"
  | 12 => "Queen"
  | 13 => "King"
  | n => "Rank(" ++ toString n ++ ")"

/-- Modelled from the spec: the generated method `Suit.String`, which prints a
suit by the name of its constant ("Spade", "Diamond", "Club", "Heart"), and
any other value as `Suit(n)`. -/
def suitName (s : Suit) : String :=
  match s.val with
  | 0 => "Spade"
  | 1 => "Diamond"
  | 2 => "Club"
  | 3 => "Heart"
  | n => "Suit(" ++ toString n ++ ")"

/-- The method `String` of `Card`. The `String` methods of `Rank` and `Suit`,
which `Joker.String()` and the `%s` verbs call, are the parameters
`rankString` and `suitString`. -/
def Card.String (rankString : deck.Rank → String) (suitString : deck.Suit → String)
    (c : Card) : String :=
  if !c.Visible then "FACEDOWN"
  else if c.Rank = Joker then rankString Joker
  else rankString c.Rank ++ " of " ++ suitString c.Suit ++ "s"

/-! ## Specification-side vocabulary -/

/-- The thirteen ranks Ace through King, ascending. -/
def standardRanks : List Rank :=
  [Ace, Two, Three, Four, Five, Six, Seven, Eight, Nine, Ten, Jack, Queen, King]

/-- The canonical order of (suit, rank) pairs: suit by suit in the order
Spade, Diamond, Club, Heart, and within a suit Ace through King. -/
def canonicalOrder : List (Suit × Rank) :=
  [Spade, Diamond, Club, Heart].flatMap (fun s => standardRanks.map (fun r => (s, r)))

/-- Number of cards of a list with the given suit and rank. -/
def countCard (cards : List Card) (s : Suit) (r : Rank) : Nat :=
  (cards.filter (fun c => c.Suit = s ∧ c.Rank = r)).length

/-- Exact sum of `Point` over the visible cards of a list. -/
def visibleSum (cards : List Card) : Int :=
  ((cards.filter (fun c => c.Visible)).map (fun c => c.Point)).sum

/-- A retained card as `Without` rebuilds it: rank and suit kept, the other
fields at their zero values. -/
def rebuilt (c : Card) : Card :=
  { Rank := c.Rank, Suit := c.Suit, Visible := false, Point := 0 }

/-- The card `c` with its `Point` replaced by `n`, every other field kept. -/
def withPoint (c : Card) (n : Int) : Card :=
  { Rank := c.Rank, Suit := c.Suit, Visible := c.Visible, Point := n }

/-- Number of positions at which two decks hold different cards. -/
def changedCount (before after : Deck) : Nat :=
  ((before.zip after).filter (fun p => decide (p.1 ≠ p.2))).length

/-- Order by suit first and by rank second. -/
abbrev suitThenRank (a b : Card) : Prop :=
  a.Suit < b.Suit ∨ (a.Suit = b.Suit ∧ a.Rank < b.Rank)

/-- The factory that compares the cards at two positions with `lt`. -/
def onCards (lt : Card → Card → Bool) : LessFunc := fun d i j =>
  match d[i]?, d[j]? with
  | some a, some b => lt a b
  | _, _ => false

/-- A strict weak ordering: irreflexive, transitive, and with a transitive
incomparability. -/
structure StrictWeak (lt : Card → Card → Bool) : Prop where
  irrefl : ∀ a, lt a a = false
  trans : ∀ a b c, lt a b = true → lt b c = true → lt a c = true
  incomp : ∀ a b c, lt a b = false → lt b a = false → lt b c = false → lt c b = false →
    lt a c = false ∧ lt c a = false

/-- The documented contract of `sort.Slice`: for a `less` that is a strict
weak ordering of the elements, the slice ends up a permutation of its
elements in which no element is less than an element before it. (The
documentation adds that the sort is not guaranteed to be stable.) -/
def SortSliceContract (sortSlice : SliceSorter) : Prop :=
  ∀ lt : Card → Card → Bool, StrictWeak lt → ∀ d : Deck,
    (sortSlice d (onCards lt)).Perm d ∧
    (sortSlice d (onCards lt)).Pairwise (fun a b => lt b a = false)

/-- A sorter within the contract of `sort.Slice`: insertion sort. -/
def insertionSlice : SliceSorter := fun d lf =>
  d.insertionSort (fun a b => lf [b, a] 0 1 = false)

/-- Comparison of two cards by ascending default key. -/
def byKey (a b : Card) : Bool := decide (defSort a < defSort b)

/-! ## The standard library's sort.Slice

`sort.Slice` is not code of the package. Its implementation since Go 1.19, the
pattern-defeating quicksort `pdqsort_func` of package `sort`, is embedded here
function by function; the slice is the deck, `data.Less(i, j)` is the closure
of the factory applied to the deck as it stands, and `data.Swap(i, j)` is
`swapAt`. Loops are recursions on their variable or on an iteration allowance
that the correctness theorem shows to be enough. -/

/-- The swap function of `sort.Slice`: `data.Swap(i, j)` exchanges the
elements at two indexes of the slice. (Another position would panic; the
sort passes indexes only, and the embedding leaves the slice as it is.) -/
def swapAt (d : Deck) (i j : Nat) : Deck :=
  match d[i]?, d[j]? with
  | some x, some y => (d.set i y).set j x
  | _, _ => d

/-- Inner loop of `insertionSort_func`:
`for j := i; j > a && data.Less(j, j-1); j-- { data.Swap(j, j-1) }`,
entered with the loop variable at the given value. -/
def insertDown (less : LessFunc) (a : Nat) : Nat → Deck → Deck
  | 0, d => d
  | j + 1, d =>
    if a < j + 1 ∧ less d (j + 1) j = true then insertDown less a j (swapAt d (j + 1) j)
    else d

/-- Outer loop of `insertionSort_func`, `for i := a + 1; i < b; i++`, with `k`
iterations left and the loop variable at `i`. -/
def insertionSortFrom (less : LessFunc) (a : Nat) : Nat → Nat → Deck → Deck
  | 0, _, d => d
  | k + 1, i, d => insertionSortFrom less a k (i + 1) (insertDown less a i d)

/-- The function `insertionSort_func`: sorts `data[a:b]` by insertion. -/
def insertionSortFunc (less : LessFunc) (a b : Nat) (d : Deck) : Deck :=
  insertionSortFrom less a (b - (a + 1)) (a + 1) d

/-- The function `siftDown_func`, its loop entered at `root` with `fuel`
iterations allowed. -/
def siftDownFunc (less : LessFunc) (hi first : Nat) : Nat → Nat → Deck → Deck
  | 0, _, d => d
  | fuel + 1, root, d =>
    if hi ≤ 2 * root + 1 then d
    else
      let child :=
        if 2 * root + 2 < hi ∧ less d (first + (2 * root + 1)) (first + (2 * root + 1) + 1) = true
        then 2 * root + 2 else 2 * root + 1
      if less d (first + root) (first + child) = false then d
      else siftDownFunc less hi first fuel child (swapAt d (first + root) (first + child))

/-- First loop of `heapSort_func`:
`for i := (hi - 1) / 2; i >= 0; i-- { siftDown_func(data, i, hi, first) }`. -/
def heapBuild (less : LessFunc) (hi first : Nat) : Nat → Deck → Deck
  | 0, d => siftDownFunc less hi first hi 0 d
  | i + 1, d => heapBuild less hi first i (siftDownFunc less hi first hi (i + 1) d)

/-- Second loop of `heapSort_func`:
`for i := hi - 1; i >= 0; i-- { data.Swap(first, first+i); siftDown_func(data, lo, i, first) }`,
with the argument one more than the loop variable. -/
def heapPop (less : LessFunc) (first : Nat) : Nat → Deck → Deck
  | 0, d => d
  | i + 1, d => heapPop less first i (siftDownFunc less i first i 0 (swapAt d first (first + i)))

/-- The function `heapSort_func`. -/
def heapSortFunc (less : LessFunc) (a b : Nat) (d : Deck) : Deck :=
  heapPop less a (b - a) (heapBuild less (b - a) a ((b - a - 1) / 2) d)

/-- A loop `for i <= j && p(i) { i++ }`, with `fuel` iterations allowed. -/
def scanUp (p : Nat → Bool) (j : Nat) : Nat → Nat → Nat
  | 0, i => i
  | fuel + 1, i => if i ≤ j ∧ p i = true then scanUp p j fuel (i + 1) else i

/-- A loop `for i <= j && p(j) { j-- }`, on the loop variable `j`. -/
def scanDown (p : Nat → Bool) (i : Nat) : Nat → Nat
  | 0 => 0
  | j + 1 => if i ≤ j + 1 ∧ p (j + 1) = true then scanDown p i j else j + 1

/-- The `for { ... }` loop of `partition_func`. -/
def partitionLoop (less : LessFunc) (a : Nat) : Nat → Nat → Nat → Deck → Nat × Nat × Deck
  | 0, i, j, d => (i, j, d)
  | fuel + 1, i, j, d =>
    let i2 := scanUp (fun k => less d k a) j (j + 1 - i) i
    let j2 := scanDown (fun k => !less d k a) i2 j
    if j2 < i2 then (i2, j2, d)
    else partitionLoop less a fuel (i2 + 1) (j2 - 1) (swapAt d i2 j2)

/-- The function `partition_func`: one quicksort partition of `data[a:b]`
around `data[pivot]`; returns the new pivot index, whether the slice was
already partitioned, and the slice. -/
def partitionFunc (less : LessFunc) (a b pivot : Nat) (d : Deck) : Nat × Bool × Deck :=
  let d1 := swapAt d a pivot
  let i := scanUp (fun k => less d1 k a) (b - 1) (b - 1 + 1 - (a + 1)) (a + 1)
  let j := scanDown (fun k => !less d1 k a) i (b - 1)
  if j < i then (j, true, swapAt d1 j a)
  else
    let r := partitionLoop less a (j - i) (i + 1) (j - 1) (swapAt d1 i j)
    (r.2.1, false, swapAt r.2.2 r.2.1 a)

/-- The `for { ... }` loop of `partitionEqual_func`. -/
def partitionEqualLoop (less : LessFunc) (a : Nat) : Nat → Nat → Nat → Deck → Nat × Deck
  | 0, i, _, d => (i, d)
  | fuel + 1, i, j, d =>
    let i2 := scanUp (fun k => !less d a k) j (j + 1 - i) i
    let j2 := scanDown (fun k => less d a k) i2 j
    if j2 < i2 then (i2, d)
    else partitionEqualLoop less a fuel (i2 + 1) (j2 - 1) (swapAt d i2 j2)

/-- The function `partitionEqual_func`: partitions `data[a:b]` into the
elements equal to `data[pivot]` followed by the elements greater than it. -/
def partitionEqualFunc (less : LessFunc) (a b pivot : Nat) (d : Deck) : Nat × Deck :=
  partitionEqualLoop less a (b - a) (a + 1) (b - 1) (swapAt d a pivot)

/-- The loop `for i < b && !data.Less(i, i-1) { i++ }`. -/
def scanSorted (less : LessFunc) (d : Deck) (b : Nat) : Nat → Nat → Nat
  | 0, i => i
  | fuel + 1, i =>
    if i < b ∧ less d i (i - 1) = false then scanSorted less d b fuel (i + 1) else i

/-- The loop `for j := i - 1; j >= 1; j-- { if !data.Less(j, j-1) { break };
data.Swap(j, j-1) }`, on the loop variable. -/
def shiftSmaller (less : LessFunc) : Nat → Deck → Deck
  | 0, d => d
  | j + 1, d =>
    if less d (j + 1) j = false then d else shiftSmaller less j (swapAt d (j + 1) j)

/-- The loop `for j := i + 1; j < b; j++ { if !data.Less(j, j-1) { break };
data.Swap(j, j-1) }`. -/
def shiftGreater (less : LessFunc) (b : Nat) : Nat → Nat → Deck → Deck
  | 0, _, d => d
  | fuel + 1, j, d =>
    if b ≤ j then d
    else if less d j (j - 1) = false then d
    else shiftGreater less b fuel (j + 1) (swapAt d j (j - 1))

/-- The function `partialInsertionSort_func`, with `steps` iterations of its
outer loop left and the variable `i` as given; returns whether the slice is
sorted at the end, and the slice. -/
def partialInsertionSortFunc (less : LessFunc) (a b : Nat) : Nat → Nat → Deck → Bool × Deck
  | 0, _, d => (false, d)
  | steps + 1, i, d =>
    let i2 := scanSorted less d b (b - i) i
    if i2 = b then (true, d)
    else if b - a < 50 then (false, d)
    else
      let d1 := swapAt d i2 (i2 - 1)
      let d2 := if 2 ≤ i2 - a then shiftSmaller less (i2 - 1) d1 else d1
      let d3 := if 2 ≤ b - i2 then shiftGreater less b (b - (i2 + 1)) (i2 + 1) d2 else d2
      partialInsertionSortFunc less a b steps i2 d3

/-- The method `Next` of `xorshift`, on a 64-bit state:
`r ^= r << 13; r ^= r >> 7; r ^= r << 17`. -/
def xorshiftNext (r : Nat) : Nat :=
  let r1 := r ^^^ ((r <<< 13) % 2 ^ 64)
  let r2 := r1 ^^^ (r1 >>> 7)
  r2 ^^^ ((r2 <<< 17) % 2 ^ 64)

/-- The function `bits.Len`: the number of bits needed to write `n`. -/
def bitsLen (n : Nat) : Nat := if n = 0 then 0 else Nat.log2 n + 1

/-- The function `nextPowerOfTwo`: `1 << bits.Len(length)`. -/
def nextPowerOfTwo (length : Nat) : Nat := 2 ^ bitsLen length

/-- The loop `for i := 0; i < 3; i++` of `breakPatterns_func`, with `k`
iterations left. -/
def breakLoop (a length modulus idx : Nat) : Nat → Nat → Nat → Deck → Deck
  | 0, _, _, d => d
  | k + 1, i, random, d =>
    let r := xorshiftNext random
    let other := r &&& (modulus - 1)
    let other2 := if length ≤ other then other - length else other
    breakLoop a length modulus idx k (i + 1) r (swapAt d (idx - 1 + i) (a + other2))

/-- The function `breakPatterns_func`: scatters three elements around. -/
def breakPatternsFunc (a b : Nat) (d : Deck) : Deck :=
  if 8 ≤ b - a then
    breakLoop a (b - a) (nextPowerOfTwo (b - a)) (a + (b - a) / 4 * 2 - 1) 3 0 (b - a) d
  else d

/-- The function `reverseRange_func`: `for i < j { data.Swap(i, j); i++; j-- }`. -/
def reverseLoop : Nat → Nat → Nat → Deck → Deck
  | 0, _, _, d => d
  | fuel + 1, i, j, d => if i < j then reverseLoop fuel (i + 1) (j - 1) (swapAt d i j) else d

/-- The function `reverseRange_func` on `data[a:b]`. -/
def reverseRangeFunc (a b : Nat) (d : Deck) : Deck :=
  reverseLoop (b - a) a (b - 1) d

/-- The hint `choosePivot_func` gives with the pivot. -/
inductive SortedHint where
  | unknownHint
  | increasingHint
  | decreasingHint
  deriving DecidableEq, Repr

/-- The function `order2_func`: the two indexes in order, and the count of
swaps. -/
def order2Func (less : LessFunc) (d : Deck) (a b swaps : Nat) : Nat × Nat × Nat :=
  if less d b a = true then (b, a, swaps + 1) else (a, b, swaps)

/-- The function `median_func`: the index of the median of three, and the
count of swaps. -/
def medianFunc (less : LessFunc) (d : Deck) (a b c swaps : Nat) : Nat × Nat :=
  let r1 := order2Func less d a b swaps
  let r2 := order2Func less d r1.2.1 c r1.2.2
  let r3 := order2Func less d r1.1 r2.1 r2.2.2
  (r3.2.1, r3.2.2)

/-- The function `medianAdjacent_func`. -/
def medianAdjacentFunc (less : LessFunc) (d : Deck) (a swaps : Nat) : Nat × Nat :=
  medianFunc less d (a - 1) a (a + 1) swaps

/-- The function `choosePivot_func`: a pivot index in `data[a:b]` and a hint. -/
def choosePivotFunc (less : LessFunc) (d : Deck) (a b : Nat) : Nat × SortedHint :=
  let l := b - a
  let i := a + l / 4 * 1
  let j := a + l / 4 * 2
  let k := a + l / 4 * 3
  let r :=
    if 8 ≤ l then
      if 50 ≤ l then
        let ri := medianAdjacentFunc less d i 0
        let rj := medianAdjacentFunc less d j ri.2
        let rk := medianAdjacentFunc less d k rj.2
        medianFunc less d ri.1 rj.1 rk.1 rk.2
      else medianFunc less d i j k 0
    else (j, 0)
  if r.2 = 0 then (r.1, SortedHint.increasingHint)
  else if r.2 = 12 then (r.1, SortedHint.decreasingHint)
  else (r.1, SortedHint.unknownHint)

/-- The function `pdqsort_func`: sorts `data[a:b]`. Each pass of its loop and
each recursive call takes one unit of `fuel`. -/
def pdqsortFunc (less : LessFunc) :
    Nat → Nat → Nat → Nat → Bool → Bool → Deck → Deck
  | fuel, a, b, limit, wasBalanced, wasPartitioned, d =>
    if b - a ≤ 12 then insertionSortFunc less a b d
    else
      match fuel with
      | 0 => d
      | fuel + 1 =>
        if limit = 0 then heapSortFunc less a b d
        else
          let d1 := if wasBalanced then d else breakPatternsFunc a b d
          let limit1 := if wasBalanced then limit else limit - 1
          let c := choosePivotFunc less d1 a b
          let d2 := if c.2 = SortedHint.decreasingHint then reverseRangeFunc a b d1 else d1
          let pivot := if c.2 = SortedHint.decreasingHint then (b - 1) - (c.1 - a) else c.1
          let hint := if c.2 = SortedHint.decreasingHint then SortedHint.increasingHint else c.2
          let r :=
            if wasBalanced ∧ wasPartitioned ∧ hint = SortedHint.increasingHint
            then partialInsertionSortFunc less a b 5 (a + 1) d2 else (false, d2)
          if r.1 = true then r.2
          else if 0 < a ∧ less r.2 (a - 1) pivot = false then
            let e := partitionEqualFunc less a b pivot r.2
            pdqsortFunc less fuel e.1 b limit1 wasBalanced wasPartitioned e.2
          else
            let p := partitionFunc less a b pivot r.2
            let mid := p.1
            if mid - a < b - mid then
              pdqsortFunc less fuel (mid + 1) b limit1
                (decide ((b - a) / 8 ≤ mid - a)) p.2.1
                (pdqsortFunc less fuel a mid limit1 true true p.2.2)
            else
              pdqsortFunc less fuel a mid limit1
                (decide ((b - a) / 8 ≤ b - mid)) p.2.1
                (pdqsortFunc less fuel (mid + 1) b limit1 true true p.2.2)

/-- Go's `sort.Slice(x, less)` as implemented from Go 1.19 on:
`pdqsort_func(lessSwap{less, swap}, 0, length, bits.Len(uint(length)))`. -/
def pdqSlice : SliceSorter := fun d less =>
  pdqsortFunc less d.length 0 d.length (bitsLen d.length) true true d

/-! ## Vocabulary for the sort -/

/-- The card at a position of the deck (a fixed card for a position that is
not an index). -/
def cardAt (d : Deck) (k : Nat) : Card :=
  (d[k]?).getD { Rank := 0, Suit := 0, Visible := false, Point := 0 }

/-- The deck `d2` is `d` with the cards of the positions `a ≤ k < b` permuted
among themselves and every other position kept. -/
structure Within (a b : Nat) (d d2 : Deck) : Prop where
  perm : d2.Perm d
  outside : ∀ k, (k < a ∨ b ≤ k) → d2[k]? = d[k]?
  inside : ∀ k, a ≤ k → k < b → ∃ m, a ≤ m ∧ m < b ∧ d2[k]? = d[m]?

/-- The positions `a ≤ k < b` of the deck are in order: no card is less than
a card before it. -/
def SortedOn (lt : Card → Card → Bool) (d : Deck) (a b : Nat) : Prop :=
  ∀ i j, a ≤ i → i < j → j < b → lt (cardAt d j) (cardAt d i) = false

/-- Every card at a position `a ≤ k < b` is at least the card just before
position `a`, when there is one. -/
def LowerBound (lt : Card → Card → Bool) (d : Deck) (a b : Nat) : Prop :=
  0 < a → ∀ k, a ≤ k → k < b → lt (cardAt d k) (cardAt d (a - 1)) = false

/-- Heap order on the positions `first + r` for `lo ≤ r`, within the first
`hi` positions from `first`: no card is less than its children, the cards at
`first + 2r + 1` and `first + 2r + 2`. -/
def HeapOn (lt : Card → Card → Bool) (d : Deck) (first lo hi : Nat) : Prop :=
  ∀ r c, lo ≤ r → c < hi → (c = 2 * r + 1 ∨ c = 2 * r + 2) →
    lt (cardAt d (first + r)) (cardAt d (first + c)) = false

/-- Stability of a reordering `out` of `d`: the cards that `lt` does not
distinguish from a card `c` come in the same order in `out` as in `d`. -/
def Stable (lt : Card → Card → Bool) (d out : Deck) : Prop :=
  ∀ c : Card, out.filter (fun x => !lt c x && !lt x c) = d.filter (fun x => !lt c x && !lt x c)

/-- Comparison of two cards by suit alone. -/
def bySuit (a b : Card) : Bool := decide (a.Suit < b.Suit)

/-- Comparison of two cards by descending default key. -/
def byKeyDesc (a b : Card) : Bool := decide (defSort a > defSort b)

/-- A hand of thirteen cards: the Diamonds from Ace to Queen, then the Ace of
Spades, with the default points. -/
def diamondsThenSpade : Deck :=
  [⟨Ace, Diamond, true, 1⟩, ⟨Two, Diamond, true, 2⟩, ⟨Three, Diamond, true, 3⟩,
   ⟨Four, Diamond, true, 4⟩, ⟨Five, Diamond, true, 5⟩, ⟨Six, Diamond, true, 6⟩,
   ⟨Seven, Diamond, true, 7⟩, ⟨Eight, Diamond, true, 8⟩, ⟨Nine, Diamond, true, 9⟩,
   ⟨Ten, Diamond, true, 10⟩, ⟨Jack, Diamond, true, 12⟩, ⟨Queen, Diamond, true, 13⟩,
   ⟨Ace, Spade, true, 1⟩]

/-! ## Loop lemmas -/

theorem forCount_append {ι α : Type} (succ : ι → ι) (xs : List α) (k : Nat) (i : ι)
    (s : List α) :
    forCount succ (fun _ s => s ++ xs) k i s = s ++ (List.replicate k xs).flatten := by
  induction k generalizing i s with
  | zero => simp [forCount]
  | succ k ih => simp [forCount, ih, List.replicate_succ]

theorem drawLoop_ok (d : Deck) (k i : Nat) (cards : List Card) (h : i + k ≤ d.length) :
    drawLoop d k i cards = some (cards ++ (d.drop i).take k) := by
  induction k generalizing i cards with
  | zero => simp [drawLoop]
  | succ k ih =>
    have hi : i < d.length := by omega
    have hd : d.drop i = d[i] :: d.drop (i + 1) := List.drop_eq_getElem_cons hi
    simp only [drawLoop, List.getElem?_eq_getElem hi]
    rw [ih (i + 1) _ (by omega), hd, List.take_succ_cons, List.append_assoc]
    rfl

theorem drawLoop_fail (d : Deck) (k i : Nat) (cards : List Card) (hi : i ≤ d.length)
    (h : d.length < i + k) : drawLoop d k i cards = none := by
  induction k generalizing i cards with
  | zero => omega
  | succ k ih =>
    by_cases hlt : i < d.length
    · simp only [drawLoop, List.getElem?_eq_getElem hlt]
      exact ih (i + 1) _ (by omega) (by omega)
    · have : d[i]? = none := List.getElem?_eq_none (by omega)
      simp [drawLoop, this]

theorem wrapInt_add_left (a p : Int) : wrapInt (wrapInt a + p) = wrapInt (a + p) := by
  unfold wrapInt
  omega

theorem wrapInt_of_inRange (x : Int) (h : minInt ≤ x ∧ x ≤ maxInt) : wrapInt x = x := by
  unfold wrapInt
  unfold minInt maxInt at h
  omega

theorem points_foldl (cards : List Card) (a : Int) :
    cards.foldl (fun res card => if card.Visible then wrapInt (res + card.Point) else res)
      (wrapInt a) = wrapInt (a + visibleSum cards) := by
  induction cards generalizing a with
  | nil => simp [visibleSum]
  | cons c cs ih =>
    by_cases hv : c.Visible = true
    · simp only [List.foldl_cons, hv, if_true, wrapInt_add_left]
      rw [ih]
      simp [visibleSum, hv, add_assoc]
    · have hv2 : c.Visible = false := by simpa using hv
      simp only [List.foldl_cons, hv2, Bool.false_eq_true, if_false]
      rw [ih]
      simp [visibleSum, hv2]

theorem contains_iff (ranks : List Rank) (rank : Rank) :
    contains ranks rank = true ↔ rank ∈ ranks := by
  induction ranks with
  | nil => simp [contains]
  | cons v vs ih =>
    by_cases h : v = rank
    · simp [contains, h]
    · have h2 : ¬ rank = v := fun e => h e.symm
      simp [contains, h, h2, ih]

theorem without_foldl (ranks : List Rank) (d acc : Deck) :
    d.foldl (fun deck v =>
      if contains ranks v.Rank then deck
      else deck ++ [{ Rank := v.Rank, Suit := v.Suit, Visible := false, Point := 0 }]) acc
      = acc ++ (d.filter (fun c => decide (c.Rank ∉ ranks))).map rebuilt := by
  induction d generalizing acc with
  | nil => simp
  | cons c cs ih =>
    by_cases h : c.Rank ∈ ranks
    · have hc : contains ranks c.Rank = true := (contains_iff _ _).2 h
      simp [List.foldl_cons, hc, ih, h]
    · have hc : contains ranks c.Rank = false := by
        cases hb : contains ranks c.Rank
        · rfl
        · exact absurd ((contains_iff _ _).1 hb) h
      simp [List.foldl_cons, hc, ih, h, rebuilt]

theorem Jokers_eq (n : Int) (d : Deck) :
    Jokers n d = d ++ List.replicate n.toNat
      { Rank := Joker, Suit := Spade, Visible := false, Point := 0 } := by
  unfold Jokers forInt
  rw [forCount_append]
  simp [Spade]

theorem Size_eq (n : Int) (d : Deck) :
    Size n d = d ++ (List.replicate (n - 1).toNat (New [])).flatten := by
  unfold Size forInt
  rw [forCount_append]

theorem New_length : (New []).length = 52 := by decide

theorem Draw_inBounds (d : Deck) (n : Int) (h0 : 0 ≤ n) (hn : n ≤ (d.length : Int)) :
    Draw d n = some (d.take n.toNat, d.drop n.toNat) := by
  have hs : sliceFrom d n = some (d.drop n.toNat) := by
    unfold sliceFrom
    rw [if_pos ⟨h0, hn⟩]
  simp [Draw, drawLoop_ok d n.toNat 0 [] (by omega), hs]

/-! ## The fresh deck -/

set_option maxRecDepth 100000 in
/-- C1: `New()` with no options has exactly 52 cards, in the canonical order
(suit by suit Spade, Diamond, Club, Heart, ranks Ace to King ascending);
each of the 4 × 13 (suit, rank) pairs occurs exactly once, no card is a Joker
and every card is visible. -/
theorem New_canonical_deck :
    (New []).length = 52 ∧
    (New []).map (fun c => (c.Suit, c.Rank)) = canonicalOrder ∧
    (∀ s ∈ suits, ∀ r ∈ standardRanks, countCard (New []) s r = 1) ∧
    (∀ c ∈ New [], c.Rank ≠ Joker) ∧
    (∀ c ∈ New [], c.Visible = true) := by
  refine ⟨by decide, by decide, by decide, by decide, by decide⟩

set_option maxRecDepth 100000 in
/-- C2: every card of `New()` whose rank is Jack, Queen or King has `Point`
equal to the rank ordinal plus one (Jack = 12, Queen = 13, King = 14), and
every other card has `Point` equal to the rank ordinal (Ace = 1, ..., Ten = 10). -/
theorem New_default_points :
    (∀ c ∈ New [], (c.Rank = Jack ∨ c.Rank = Queen ∨ c.Rank = King) →
      c.Point = (c.Rank.val : Int) + 1) ∧
    (∀ c ∈ New [], ¬ (c.Rank = Jack ∨ c.Rank = Queen ∨ c.Rank = King) →
      c.Point = (c.Rank.val : Int)) ∧
    (New []).map (fun c => (c.Rank, c.Point)) =
      (List.replicate 4
        [(Ace, 1), (Two, 2), (Three, 3), (Four, 4), (Five, 5), (Six, 6), (Seven, 7),
         (Eight, 8), (Nine, 9), (Ten, 10), (Jack, 12), (Queen, 13), (King, 14)]).flatten := by
  refine ⟨by decide, by decide, by decide⟩

/-! ## Draw -/

/-- C3: for every deck `d` and every `n` with `0 ≤ n ≤ len(d)`, `Draw(n)`
returns exactly the first `n` cards of `d` in order and leaves the deck equal
to the remaining suffix, of length `len(d) - n`; the returned cards followed
by the remaining deck are the original `d`. -/
theorem Draw_prefix_suffix (d : Deck) (n : Int) (h0 : 0 ≤ n) (hn : n ≤ (d.length : Int)) :
    Draw d n = some (d.take n.toNat, d.drop n.toNat) ∧
    ((d.take n.toNat).length : Int) = n ∧
    ((d.drop n.toNat).length : Int) = (d.length : Int) - n ∧
    d.take n.toNat ++ d.drop n.toNat = d := by
  have hk : n.toNat ≤ d.length := by omega
  refine ⟨?_, ?_, ?_, List.take_append_drop _ _⟩
  · exact Draw_inBounds d n h0 hn
  · rw [List.length_take]
    omega
  · rw [List.length_drop]
    omega

set_option maxRecDepth 100000 in
/-- Witness for C3: drawing 3 cards from the fresh deck. -/
theorem Draw_prefix_suffix_witness :
    (0 : Int) ≤ 3 ∧ (3 : Int) ≤ ((New []).length : Int) ∧
    Draw (New []) 3 = some ((New []).take 3, (New []).drop 3) ∧
    (((New []).take 3).length : Int) = 3 ∧
    (((New []).drop 3).length : Int) = ((New []).length : Int) - 3 ∧
    (New []).take 3 ++ (New []).drop 3 = New [] :=
  ⟨by decide, by decide, Draw_prefix_suffix (New []) 3 (by decide) (by decide)⟩

set_option maxRecDepth 100000 in
/-- C4 as stated fails: `-1 ≤ len(New())`, yet `Draw(-1)` on the fresh deck
panics, in the slice expression `(*d)[n:]`. -/
theorem Draw_negative_panics :
    ¬ ((Draw (New []) (-1)).isSome = true ↔ (-1 : Int) ≤ ((New []).length : Int)) := by
  decide

/-- C4 amended: for every deck `d` and every integer `n`, `Draw(n)` completes
without a bounds panic if and only if `0 ≤ n ≤ len(d)`. -/
theorem Draw_completes_iff (d : Deck) (n : Int) :
    (Draw d n).isSome = true ↔ 0 ≤ n ∧ n ≤ (d.length : Int) := by
  constructor
  · intro h
    by_contra hc
    have hnone : Draw d n = none := by
      by_cases hlt : (d.length : Int) < n
      · have : drawLoop d n.toNat 0 [] = none :=
          drawLoop_fail d n.toNat 0 [] (Nat.zero_le _) (by omega)
        simp [Draw, this]
      · have hs : sliceFrom d n = none := by
          unfold sliceFrom
          rw [if_neg hc]
        have hl : drawLoop d n.toNat 0 [] = some ((d.drop 0).take n.toNat) := by
          simpa using drawLoop_ok d n.toNat 0 [] (by omega)
        simp [Draw, hl, hs]
    rw [hnone] at h
    exact absurd h (by simp)
  · rintro ⟨h0, hn⟩
    rw [(Draw_inBounds d n h0 hn)]
    rfl

/-! ## Points -/

/-- C5 as stated fails: for two visible cards with points `maxInt` and `1` the
accumulation overflows and `Points` returns `minInt`, not the sum `2^63`. -/
theorem Points_overflow_not_sum :
    visibleSum [⟨Ace, Spade, true, maxInt⟩, ⟨Two, Spade, true, 1⟩] = 2 ^ 63 ∧
    Points [⟨Ace, Spade, true, maxInt⟩, ⟨Two, Spade, true, 1⟩] = minInt ∧
    Points [⟨Ace, Spade, true, maxInt⟩, ⟨Two, Spade, true, 1⟩] ≠
      visibleSum [⟨Ace, Spade, true, maxInt⟩, ⟨Two, Spade, true, 1⟩] := by
  decide

set_option maxRecDepth 100000 in
/-- C5 amended: for every sequence of cards, `Points` returns the sum of
`Point` over exactly the visible cards, reduced modulo `2^64` into the range
of a 64-bit `int`; it is the exact sum whenever that sum lies in the range.
Invisible cards contribute zero. `Points` of the first 13 cards drawn from
`New()` is 94. -/
theorem Points_visible_sum (cards : List Card) :
    Points cards = wrapInt (visibleSum cards) ∧
    (minInt ≤ visibleSum cards ∧ visibleSum cards ≤ maxInt → Points cards = visibleSum cards) ∧
    (Draw (New []) 13).map (fun r => Points r.1) = some 94 := by
  have hw : Points cards = wrapInt (visibleSum cards) := by
    have h := points_foldl cards 0
    have h0 : wrapInt 0 = 0 := by decide
    rw [h0, zero_add] at h
    exact h
  refine ⟨hw, ?_, by decide⟩
  intro hr
  rw [hw, wrapInt_of_inRange _ hr]

set_option maxRecDepth 100000 in
/-- Witness for C5: a hand with a face-down card, whose sum is in range. -/
theorem Points_visible_sum_witness :
    Points [⟨King, Heart, true, 14⟩, ⟨Ace, Club, false, 1⟩, ⟨Two, Spade, true, 2⟩] = 16 ∧
    visibleSum [⟨King, Heart, true, 14⟩, ⟨Ace, Club, false, 1⟩, ⟨Two, Spade, true, 2⟩] = 16 :=
  ⟨((Points_visible_sum
      [⟨King, Heart, true, 14⟩, ⟨Ace, Club, false, 1⟩, ⟨Two, Spade, true, 2⟩]).2.1
      (by decide)).trans (by decide), by decide⟩

/-! ## Without -/

/-- C6: for every deck `d` and ranks `rs`, `Without(rs)` yields exactly the
cards of `d` whose rank is not in `rs`, in their original order, each rebuilt
with the same rank and suit but `Visible = false` and `Point = 0`; the result
holds no card whose rank is in `rs`. -/
theorem Without_filter_rebuilt (d : Deck) (rs : List Rank) :
    Without rs d = (d.filter (fun c => decide (c.Rank ∉ rs))).map rebuilt ∧
    (∀ c, rebuilt c = ⟨c.Rank, c.Suit, false, 0⟩) ∧
    (∀ c ∈ Without rs d, c.Rank ∉ rs) := by
  have h : Without rs d = (d.filter (fun c => decide (c.Rank ∉ rs))).map rebuilt := by
    unfold Without
    rw [without_foldl]
    simp
  refine ⟨h, fun _ => rfl, ?_⟩
  intro c hc
  rw [h, List.mem_map] at hc
  obtain ⟨c0, hc0, rfl⟩ := hc
  simpa [rebuilt] using (List.mem_filter.1 hc0).2

set_option maxRecDepth 100000 in
/-- C7 at its failing input: no card of `New()` has a rank in the empty list,
yet `New(Without())` differs from `New()`: it keeps the 52 ranks and suits but
every card comes back face down with zero points. -/
theorem Without_nothing_resets_cards :
    (∀ c ∈ New [], c.Rank ∉ ([] : List Rank)) ∧
    Without [] (New []) ≠ New [] ∧
    Without [] (New []) = (New []).map rebuilt ∧
    (∀ c ∈ Without [] (New []), c.Visible = false ∧ c.Point = 0) := by
  decide

/-! ## Jokers -/

set_option maxRecDepth 100000 in
/-- C8 at its failing input: in `New(Jokers(1))` the one card appended to the
52 of `New()` has rank Joker and suit Spade, but its `Visible` is false, not
true. In general `Jokers(n)` appends `n` such face-down cards. -/
theorem Jokers_appends_face_down :
    New [Jokers 1] = New [] ++ [⟨Joker, Spade, false, 0⟩] ∧
    (New [Jokers 1])[52]?.map (fun c => c.Visible) = some false ∧
    (∀ (n : Int) (d : Deck),
      Jokers n d = d ++ List.replicate n.toNat ⟨Joker, Spade, false, 0⟩) := by
  refine ⟨by decide, by decide, Jokers_eq⟩

/-- C9: for every `n ≥ 0`, `New(Jokers(n))` has length `52 + n`, its first 52
cards are exactly `New()`, and it contains exactly `n` cards of rank Joker. -/
theorem New_Jokers_count (n : Int) (h : 0 ≤ n) :
    ((New [Jokers n]).length : Int) = 52 + n ∧
    (New [Jokers n]).take 52 = New [] ∧
    (((New [Jokers n]).filter (fun c => c.Rank = Joker)).length : Int) = n := by
  have hN : New [Jokers n] = New [] ++ List.replicate n.toNat ⟨Joker, Spade, false, 0⟩ := by
    show Jokers n (New []) = _
    exact Jokers_eq n (New [])
  have hf : (New []).filter (fun c => c.Rank = Joker) = [] := by decide
  rw [hN]
  refine ⟨?_, ?_, ?_⟩
  · rw [List.length_append, List.length_replicate, New_length]
    omega
  · rw [List.take_left' New_length]
  · rw [List.filter_append, hf, List.nil_append, List.filter_replicate]
    simp
    omega

set_option maxRecDepth 100000 in
/-- Witness for C9: three jokers, as in the test of `Jokers`. -/
theorem New_Jokers_count_witness :
    (0 : Int) ≤ 3 ∧
    ((New [Jokers 3]).length : Int) = 52 + 3 ∧
    (New [Jokers 3]).take 52 = New [] ∧
    (((New [Jokers 3]).filter (fun c => c.Rank = Joker)).length : Int) = 3 :=
  ⟨by decide, New_Jokers_count 3 (by decide)⟩

/-! ## Size -/

/-- C10: for every integer `n ≥ 1`, `New(Size(n))` is `n` consecutive copies of
`New()` and so has exactly `52 * n` cards. -/
theorem New_Size_copies (n : Int) (h : 1 ≤ n) :
    New [Size n] = (List.replicate n.toNat (New [])).flatten ∧
    ((New [Size n]).length : Int) = 52 * n := by
  have hk : n.toNat = (n - 1).toNat + 1 := by omega
  have hN : New [Size n] = (List.replicate n.toNat (New [])).flatten := by
    show Size n (New []) = _
    rw [Size_eq, hk, List.replicate_succ, List.flatten_cons]
  refine ⟨hN, ?_⟩
  rw [hN, List.length_flatten, List.map_replicate, List.sum_replicate, New_length]
  simp
  omega

set_option maxRecDepth 100000 in
/-- Witness for C10: five decks, as in the test of `Size`. -/
theorem New_Size_copies_witness :
    (1 : Int) ≤ 5 ∧
    New [Size 5] = (List.replicate 5 (New [])).flatten ∧
    ((New [Size 5]).length : Int) = 52 * 5 :=
  ⟨by decide, New_Size_copies 5 (by decide)⟩

/-! ## Order of options -/

set_option maxRecDepth 100000 in
/-- C11: options are applied left to right and do not commute:
`New(Size(2), Without(Ace))` has 96 cards and no Ace, whereas
`New(Without(Ace), Size(2))` has 100 cards and exactly 4 Aces, the deck
appended by `Size` being the plain `New()`. -/
theorem New_options_not_commutative :
    (∀ o1 o2 : Opt, New [o1, o2] = o2 (o1 (New []))) ∧
    (New [Size 2, Without [Ace]]).length = 96 ∧
    (∀ c ∈ New [Size 2, Without [Ace]], c.Rank ≠ Ace) ∧
    (New [Without [Ace], Size 2]).length = 100 ∧
    ((New [Without [Ace], Size 2]).filter (fun c => c.Rank = Ace)).length = 4 ∧
    New [Without [Ace], Size 2] = Without [Ace] (New []) ++ New [] := by
  refine ⟨fun _ _ => rfl, by decide, by decide, by decide, by decide, by decide⟩

/-! ## Point assignment -/

set_option maxRecDepth 100000 in
/-- C12: `AddPoints(r, s, n)` keeps the length, order, rank, suit and
visibility of every card and changes only `Point`: with `r = Joker` exactly the
cards of rank Joker, of any suit, get `Point = n`; otherwise exactly the cards
with rank `r` and suit `s` do; every other card is kept as it is. On `New()`,
`AddPoints(Queen, Heart, 75)` changes exactly one card, the Queen of Hearts. -/
theorem AddPoints_targets (d : Deck) (r : Rank) (s : Suit) (n : Int) :
    (AddPoints r s n d).length = d.length ∧
    (r = Joker → AddPoints r s n d =
      d.map (fun c => if c.Rank = Joker then withPoint c n else c)) ∧
    (r ≠ Joker → AddPoints r s n d =
      d.map (fun c => if c.Rank = r ∧ c.Suit = s then withPoint c n else c)) ∧
    changedCount (New []) (AddPoints Queen Heart 75 (New [])) = 1 ∧
    (AddPoints Queen Heart 75 (New []))[50]? = some ⟨Queen, Heart, true, 75⟩ ∧
    (New [])[50]? = some ⟨Queen, Heart, true, 13⟩ := by
  refine ⟨by simp [AddPoints], ?_, ?_, by decide, by decide, by decide⟩
  · intro hr
    subst hr
    unfold AddPoints
    apply List.map_congr_left
    intro c _
    by_cases hc : c.Rank = Joker
    · simp [hc, withPoint]
    · simp [hc, withPoint]
  · intro hr
    unfold AddPoints
    apply List.map_congr_left
    intro c _
    simp [hr, withPoint]

set_option maxRecDepth 100000 in
/-- C13: `FacePoints(n)` sets `Point = n` on exactly the cards whose rank is
Jack, Queen or King and leaves every other card, and the rank, suit,
visibility, position and number of all cards, unchanged; on `New()` with
`n = 10` every non-face card keeps its default `Point`, the rank ordinal. -/
theorem FacePoints_targets (d : Deck) (n : Int) :
    (FacePoints n d).length = d.length ∧
    FacePoints n d = d.map (fun c =>
      if c.Rank = Jack ∨ c.Rank = Queen ∨ c.Rank = King then withPoint c n else c) ∧
    (∀ c ∈ FacePoints 10 (New []),
      if c.Rank = Jack ∨ c.Rank = Queen ∨ c.Rank = King then c.Point = 10
      else c.Point = (c.Rank.val : Int)) ∧
    (FacePoints 10 (New [])).map (fun c => (c.Rank, c.Suit, c.Visible)) =
      (New []).map (fun c => (c.Rank, c.Suit, c.Visible)) := by
  refine ⟨by simp [FacePoints], rfl, by decide, by decide⟩

set_option maxRecDepth 100000 in
/-- C14: `SuitPoints(s, n)` sets `Point = n` on every card whose `Suit` field
is `s` and leaves every card of another suit, and the rank, suit, visibility,
position and number of all cards, unchanged. A Joker added by `Jokers` has the
`Suit` field Spade and is therefore set by `SuitPoints(Spade, n)`. -/
theorem SuitPoints_targets (d : Deck) (s : Suit) (n : Int) :
    (SuitPoints s n d).length = d.length ∧
    SuitPoints s n d = d.map (fun c => if c.Suit = s then withPoint c n else c) ∧
    (SuitPoints Spade 7 (New [Jokers 1]))[52]? = some ⟨Joker, Spade, false, 7⟩ ∧
    (SuitPoints Heart 7 (New [Jokers 1]))[52]? = some ⟨Joker, Spade, false, 0⟩ := by
  refine ⟨by simp [SuitPoints], rfl, by decide, by decide⟩

/-! ## The default sort key -/

/-- C19 as stated fails: the King of Spades and a Joker of Diamonds have the
same key 13, although Spade comes before Diamond. -/
theorem defSort_King_Joker_tie :
    defSort ⟨King, Spade, true, 14⟩ = 13 ∧
    defSort ⟨Joker, Diamond, true, 0⟩ = 13 ∧
    ¬ (defSort ⟨King, Spade, true, 14⟩ < defSort ⟨Joker, Diamond, true, 0⟩ ↔
        suitThenRank ⟨King, Spade, true, 14⟩ ⟨Joker, Diamond, true, 0⟩) := by
  decide

/-- C19 amended: for every two cards whose rank ordinals differ by at most 12,
in particular for every two cards with ranks in Ace..King, the key
`suit * 13 + rank` orders by suit first and by rank second:
`defSort(a) < defSort(b)` iff `Suit(a) < Suit(b)`, or the suits are equal and
`Rank(a) < Rank(b)`. -/
theorem defSort_lt_iff (a b : Card) :
    ((a.Rank.val : Int) - (b.Rank.val : Int) ≤ 12 ∧
      (b.Rank.val : Int) - (a.Rank.val : Int) ≤ 12 →
      (defSort a < defSort b ↔ suitThenRank a b)) ∧
    (Ace ≤ a.Rank ∧ a.Rank ≤ King ∧ Ace ≤ b.Rank ∧ b.Rank ≤ King →
      (defSort a < defSort b ↔ suitThenRank a b)) := by
  have key : (a.Rank.val : Int) - (b.Rank.val : Int) ≤ 12 ∧
      (b.Rank.val : Int) - (a.Rank.val : Int) ≤ 12 →
      (defSort a < defSort b ↔ suitThenRank a b) := by
    intro h
    have hm : (MaxRank.val : Int) = 13 := by decide
    simp only [defSort, suitThenRank, hm, Fin.lt_def, Fin.ext_iff]
    omega
  refine ⟨key, ?_⟩
  intro h
  apply key
  have h1 : (Ace : Rank).val = 1 := rfl
  have h13 : (King : Rank).val = 13 := rfl
  simp only [Fin.le_def, h1, h13] at h
  omega

/-- Witness for C19: the Ten of Spades against the Two of Diamonds. -/
theorem defSort_lt_iff_witness :
    defSort ⟨Ten, Spade, true, 10⟩ < defSort ⟨Two, Diamond, true, 2⟩ ↔
      suitThenRank ⟨Ten, Spade, true, 10⟩ ⟨Two, Diamond, true, 2⟩ :=
  (defSort_lt_iff ⟨Ten, Spade, true, 10⟩ ⟨Two, Diamond, true, 2⟩).2 (by decide)

/-! ## Sorting lemmas -/

theorem less_eq_onCards : less = onCards byKey := rfl

theorem strictWeak_byKey : StrictWeak byKey := by
  constructor <;> intros <;> simp_all [byKey] <;> omega

theorem StrictWeak.total {lt : Card → Card → Bool} (h : StrictWeak lt) (a b : Card) :
    lt b a = false ∨ lt a b = false := by
  cases hba : lt b a
  · exact Or.inl rfl
  · cases hab : lt a b
    · exact Or.inr rfl
    · have := h.trans a b a hab hba
      rw [h.irrefl a] at this
      exact absurd this (by simp)

theorem StrictWeak.le_trans {lt : Card → Card → Bool} (h : StrictWeak lt) (a b c : Card)
    (hab : lt b a = false) (hbc : lt c b = false) : lt c a = false := by
  cases hca : lt c a
  · rfl
  · exfalso
    cases h1 : lt a b
    · cases h2 : lt b c
      · have := (h.incomp a b c h1 hab h2 hbc).2
        rw [hca] at this
        exact absurd this (by simp)
      · have := h.trans b c a h2 hca
        rw [hab] at this
        exact absurd this (by simp)
    · have := h.trans c a b hca h1
      rw [hbc] at this
      exact absurd this (by simp)

theorem insertionSort_contract (lt : Card → Card → Bool) (h : StrictWeak lt) (d : Deck) :
    (d.insertionSort (fun a b => lt b a = false)).Perm d ∧
    (d.insertionSort (fun a b => lt b a = false)).Pairwise (fun a b => lt b a = false) := by
  haveI : IsTotal Card (fun a b => lt b a = false) := ⟨fun a b => h.total a b⟩
  haveI : IsTrans Card (fun a b => lt b a = false) := ⟨fun a b c hab hbc => h.le_trans a b c hab hbc⟩
  exact ⟨List.perm_insertionSort _ d, List.sorted_insertionSort _ d⟩

theorem insertionSlice_contract : SortSliceContract insertionSlice := by
  intro lt h d
  exact insertionSort_contract lt h d

theorem eq_of_map_key_eq (key : Card → Int) (l1 l2 : Deck) (h : l1.map key = l2.map key)
    (hinj : ∀ a ∈ l1, ∀ b ∈ l2, key a = key b → a = b) : l1 = l2 := by
  induction l1 generalizing l2 with
  | nil =>
    cases l2 with
    | nil => rfl
    | cons b t => simp at h
  | cons a t ih =>
    cases l2 with
    | nil => simp at h
    | cons b t2 =>
      simp only [List.map_cons, List.cons.injEq] at h
      have hab : a = b := hinj a (List.mem_cons_self _ _) b (List.mem_cons_self _ _) h.1
      have ht : t = t2 := ih t2 h.2 (fun x hx y hy =>
        hinj x (List.mem_cons_of_mem _ hx) y (List.mem_cons_of_mem _ hy))
      rw [hab, ht]

theorem sorted_perm_unique (key : Card → Int) (out ref : Deck) (hp : out.Perm ref)
    (ho : out.Pairwise (fun a b => key a ≤ key b))
    (hr : (ref.map key).Pairwise (fun x y => x < y)) : out = ref := by
  have hnd : (ref.map key).Nodup := hr.imp (fun h => ne_of_lt h)
  have hinj := List.inj_on_of_nodup_map hnd
  have h1 : (out.map key).Sorted (fun x y => x ≤ y) := List.pairwise_map.2 ho
  have h2 : (ref.map key).Sorted (fun x y => x ≤ y) := hr.imp (fun h => le_of_lt h)
  have hm : out.map key = ref.map key := List.eq_of_perm_of_sorted (hp.map key) h1 h2
  exact eq_of_map_key_eq key out ref hm (fun a ha b hb hk => hinj (hp.subset ha) hb hk)

set_option maxRecDepth 100000 in
theorem New_keys_increasing : ((New []).map defSort).Pairwise (fun x y => x < y) := by
  decide

theorem sort_less_New (sortSlice : SliceSorter) (hc : SortSliceContract sortSlice) :
    sortSlice (New []) less = New [] := by
  have h := hc byKey strictWeak_byKey (New [])
  rw [← less_eq_onCards] at h
  refine sorted_perm_unique defSort _ _ h.1 (h.2.imp ?_) New_keys_increasing
  intro a b hab
  simpa [byKey] using hab

/-! ## Sort and DefaultSort -/

set_option maxRecDepth 100000 in
/-- C16: `New(DefaultSort())` equals `New()` card for card, whatever
`sort.Slice` does within its contract: the fresh deck is already in
default-sort order with pairwise distinct keys. In particular its card 0 is
the Ace of Spades, visible, with `Point = 1`. -/
theorem New_DefaultSort_unchanged (sortSlice : SliceSorter)
    (hc : SortSliceContract sortSlice) :
    New [DefaultSort sortSlice] = New [] ∧
    ((New []).map defSort).Pairwise (fun x y => x < y) ∧
    (New [DefaultSort sortSlice])[0]? = some ⟨Ace, Spade, true, 1⟩ := by
  have hd : New [DefaultSort sortSlice] = New [] := sort_less_New sortSlice hc
  refine ⟨hd, New_keys_increasing, ?_⟩
  rw [hd]
  decide

set_option maxRecDepth 100000 in
/-- Witness for C16: insertion sort as the sorter. -/
theorem New_DefaultSort_unchanged_witness :
    SortSliceContract insertionSlice ∧
    New [DefaultSort insertionSlice] = New [] ∧
    (New [DefaultSort insertionSlice])[0]? = some ⟨Ace, Spade, true, 1⟩ :=
  ⟨insertionSlice_contract,
   (New_DefaultSort_unchanged insertionSlice insertionSlice_contract).1,
   (New_DefaultSort_unchanged insertionSlice insertionSlice_contract).2.2⟩

/-! ## Shuffle -/

theorem swapCards_perm (deck : Deck) (i j : Nat) (hi : i < deck.length)
    (hj : j < deck.length) :
    ∃ d2, swapCards deck i j = some d2 ∧ d2.Perm deck := by
  refine ⟨(deck.set i deck[j]).set j deck[i], ?_, ?_⟩
  · simp [swapCards, List.getElem?_eq_getElem hi, List.getElem?_eq_getElem hj]
  · rw [List.perm_iff_count]
    intro c
    have hj2 : j < (deck.set i deck[j]).length := by simpa using hj
    have hget : (deck.set i deck[j])[j] = deck[j] := by
      by_cases h : i = j
      · subst h
        simp
      · simp [List.getElem_set_ne h]
    have hle : (if deck[i] == c then 1 else 0) ≤ deck.count c := by
      by_cases h : deck[i] = c
      · have hm : c ∈ deck := h ▸ List.getElem_mem hi
        have := List.count_pos_iff.2 hm
        simp only [h, beq_self_eq_true, if_true]
        omega
      · simp [h]
    rw [List.count_set _ _ _ _ hj2, List.count_set _ _ _ _ hi, hget]
    omega

theorem randShuffle_perm (src : Nat → Nat) (i : Nat) (deck : Deck)
    (h : i = 0 ∨ i < deck.length) :
    ∃ d2, randShuffle src i deck = some d2 ∧ d2.Perm deck := by
  induction i generalizing deck with
  | zero => exact ⟨deck, rfl, List.Perm.refl _⟩
  | succ i ih =>
    have hi : i + 1 < deck.length := by omega
    have hj : src (i + 1) % (i + 2) < deck.length := by
      have : src (i + 1) % (i + 2) < i + 2 := Nat.mod_lt _ (by omega)
      omega
    obtain ⟨d1, hs, hp⟩ := swapCards_perm deck (i + 1) _ hi hj
    have hl : d1.length = deck.length := hp.length_eq
    obtain ⟨d2, hr, hp2⟩ := ih d1 (Or.inr (by omega))
    exact ⟨d2, by simp [randShuffle, hs, hr], hp2.trans hp⟩

theorem shuffleRun_perm (src : Nat → Nat) (d : Deck) :
    shuffleRun src d = some (Shuffle src d) ∧ (Shuffle src d).Perm d := by
  obtain ⟨d2, hr, hp⟩ := randShuffle_perm src (d.length - 1) d (by omega)
  have hs : Shuffle src d = d2 := by
    simp [Shuffle, shuffleRun, hr]
  rw [hs]
  exact ⟨hr, hp⟩

/-- C17: for every deck `d` and every outcome `src` of the random source,
`Shuffle` runs without a panic and yields a permutation of `d`: the result has
the length of `d` and holds each card as many times as `d`. In particular
`len(New(Shuffle())) = len(New()) = 52`. -/
theorem Shuffle_permutation (src : Nat → Nat) (d : Deck) :
    shuffleRun src d = some (Shuffle src d) ∧
    (Shuffle src d).Perm d ∧
    (Shuffle src d).length = d.length ∧
    (∀ c : Card, (Shuffle src d).count c = d.count c) ∧
    (New [Shuffle src]).length = (New []).length ∧
    (New []).length = 52 := by
  have h := shuffleRun_perm src d
  have hN : (New [Shuffle src]).Perm (New []) := (shuffleRun_perm src (New [])).2
  exact ⟨h.1, h.2, h.2.length_eq, fun c => h.2.count_eq c, hN.length_eq, New_length⟩

/-! ## Display -/

/-- C18: a card with `Visible = false` prints as the literal "FACEDOWN"
whatever its rank, suit and point; a visible card of rank Joker prints as the
name of Joker whatever its suit; every other card prints as
"<Rank> of <Suit>s". With the names of the constants this gives the seven
lines of the display example. -/
theorem String_display (rankString : Rank → String) (suitString : Suit → String)
    (c : Card) :
    (c.Visible = false → Card.String rankString suitString c = "FACEDOWN") ∧
    (c.Visible = true → c.Rank = Joker →
      Card.String rankString suitString c = rankString Joker) ∧
    (c.Visible = true → c.Rank ≠ Joker →
      Card.String rankString suitString c =
        rankString c.Rank ++ " of " ++ suitString c.Suit ++ "s") ∧
    [Card.String rankName suitName ⟨King, Diamond, true, 0⟩,
     Card.String rankName suitName ⟨Ace, Spade, true, 0⟩,
     Card.String rankName suitName ⟨Ten, Heart, true, 0⟩,
     Card.String rankName suitName ⟨Jack, Club, true, 0⟩,
     Card.String rankName suitName ⟨Joker, Diamond, true, 0⟩,
     Card.String rankName suitName ⟨Jack, Club, false, 0⟩,
     Card.String rankName suitName ⟨Joker, Heart, false, 5⟩] =
    ["King of Diamonds", "Ace of Spades", "Ten of Hearts", "Jack of Clubs", "Joker",
     "FACEDOWN", "FACEDOWN"] := by
  refine ⟨?_, ?_, ?_, by decide⟩
  · intro hv
    simp [Card.String, hv]
  · intro hv hr
    simp [Card.String, hv, hr]
  · intro hv hr
    simp [Card.String, hv, hr]

/-! ## Score after Without -/

theorem Without_eq (rs : List Rank) (d : Deck) :
    Without rs d = (d.filter (fun c => decide (c.Rank ∉ rs))).map rebuilt := by
  unfold Without
  rw [without_foldl]
  simp

theorem Without_face_down (rs : List Rank) (d : Deck) :
    ∀ c ∈ Without rs d, c.Visible = false ∧ c.Point = 0 := by
  intro c hc
  rw [Without_eq, List.mem_map] at hc
  obtain ⟨c0, _, rfl⟩ := hc
  exact ⟨rfl, rfl⟩

theorem Points_face_down (cards : List Card) (h : ∀ c ∈ cards, c.Visible = false) :
    Points cards = 0 := by
  unfold Points
  induction cards with
  | nil => rfl
  | cons c cs ih =>
    have hc : c.Visible = false := h c (List.mem_cons_self _ _)
    simp only [List.foldl_cons, hc, Bool.false_eq_true, if_false]
    exact ih (fun x hx => h x (List.mem_cons_of_mem _ hx))

set_option maxRecDepth 100000 in
/-- C20: for every deck `d` and ranks `rs`, the deck that `Without(rs)` makes
of `d` scores zero: every retained card has `Visible = false` and `Point = 0`,
so `Points` of the whole deck is 0, and every `Draw(n)` with
`0 ≤ n ≤ len` returns cards, and leaves a deck, whose `Points` is 0. For
example `Points` of `New(Without(Ace))` is 0. -/
theorem Without_scores_zero (d : Deck) (rs : List Rank) :
    (∀ c ∈ Without rs d, c.Visible = false ∧ c.Point = 0) ∧
    Points (Without rs d) = 0 ∧
    (∀ n : Int, 0 ≤ n → n ≤ ((Without rs d).length : Int) →
      ∃ cards rest, Draw (Without rs d) n = some (cards, rest) ∧
        Points cards = 0 ∧ Points rest = 0) ∧
    Points (New [Without [Ace]]) = 0 := by
  have hf := Without_face_down rs d
  refine ⟨hf, Points_face_down _ (fun c hc => (hf c hc).1), ?_, by decide⟩
  intro n h0 hn
  refine ⟨_, _, Draw_inBounds _ n h0 hn, ?_, ?_⟩
  · exact Points_face_down _ (fun c hc => (hf c (List.mem_of_mem_take hc)).1)
  · exact Points_face_down _ (fun c hc => (hf c (List.mem_of_mem_drop hc)).1)

/-! ## Lemmas on swaps -/

theorem StrictWeak.asymm {lt : Card → Card → Bool} (h : StrictWeak lt) (a b : Card)
    (hab : lt a b = true) : lt b a = false := by
  rcases h.total a b with h1 | h1
  · exact h1
  · rw [hab] at h1
    exact absurd h1 (by simp)

theorem swapAt_length (d : Deck) (i j : Nat) : (swapAt d i j).length = d.length := by
  unfold swapAt
  split <;> simp

theorem swapAt_getElem? (d : Deck) (i j k : Nat) (hi : i < d.length) (hj : j < d.length) :
    (swapAt d i j)[k]? = if k = j then d[i]? else if k = i then d[j]? else d[k]? := by
  unfold swapAt
  simp only [List.getElem?_eq_getElem hi, List.getElem?_eq_getElem hj]
  by_cases h1 : k = j
  · subst h1
    simp [List.getElem?_set_self, hj]
  · by_cases h2 : k = i
    · subst h2
      have h3 : ¬ j = k := fun e => h1 e.symm
      simp [List.getElem?_set, h1, h3, hi]
    · have h3 : ¬ j = k := fun e => h1 e.symm
      have h4 : ¬ i = k := fun e => h2 e.symm
      simp [List.getElem?_set, h1, h2, h3, h4]

theorem swapAt_perm (d : Deck) (i j : Nat) : (swapAt d i j).Perm d := by
  by_cases hi : i < d.length
  · by_cases hj : j < d.length
    · unfold swapAt
      simp only [List.getElem?_eq_getElem hi, List.getElem?_eq_getElem hj]
      rw [List.perm_iff_count]
      intro c
      have hj2 : j < (d.set i d[j]).length := by simpa using hj
      have hget : (d.set i d[j])[j] = d[j] := by
        by_cases h : i = j
        · subst h
          simp
        · simp [List.getElem_set_ne h]
      have hle : (if d[i] == c then 1 else 0) ≤ d.count c := by
        by_cases h : d[i] = c
        · have hm : c ∈ d := h ▸ List.getElem_mem hi
          have := List.count_pos_iff.2 hm
          simp only [h, beq_self_eq_true, if_true]
          omega
        · simp [h]
      rw [List.count_set _ _ _ _ hj2, List.count_set _ _ _ _ hi, hget]
      omega
    · have : d[j]? = none := List.getElem?_eq_none (by omega)
      unfold swapAt
      rw [this]
      split <;> simp_all
  · have : d[i]? = none := List.getElem?_eq_none (by omega)
    unfold swapAt
    rw [this]

theorem cardAt_congr {d d2 : Deck} {k m : Nat} (h : d2[k]? = d[m]?) :
    cardAt d2 k = cardAt d m := by
  unfold cardAt
  rw [h]

theorem onCards_eq (lt : Card → Card → Bool) (d : Deck) (i j : Nat) (hi : i < d.length)
    (hj : j < d.length) : onCards lt d i j = lt (cardAt d i) (cardAt d j) := by
  unfold onCards cardAt
  simp [List.getElem?_eq_getElem hi, List.getElem?_eq_getElem hj]

theorem cardAt_swapAt (d : Deck) (i j k : Nat) (hi : i < d.length) (hj : j < d.length) :
    cardAt (swapAt d i j) k =
      if k = j then cardAt d i else if k = i then cardAt d j else cardAt d k := by
  unfold cardAt
  rw [swapAt_getElem? d i j k hi hj]
  split
  · rfl
  · split <;> rfl

/-! ## Lemmas on `Within` -/

theorem Within.refl (a b : Nat) (d : Deck) : Within a b d d :=
  ⟨List.Perm.refl d, fun _ _ => rfl, fun k h1 h2 => ⟨k, h1, h2, rfl⟩⟩

theorem Within.length_eq {a b : Nat} {d d2 : Deck} (h : Within a b d d2) :
    d2.length = d.length := h.perm.length_eq

theorem Within.trans {a b : Nat} {d d2 d3 : Deck} (h1 : Within a b d d2)
    (h2 : Within a b d2 d3) : Within a b d d3 := by
  refine ⟨h2.perm.trans h1.perm, ?_, ?_⟩
  · intro k hk
    rw [h2.outside k hk, h1.outside k hk]
  · intro k hk1 hk2
    obtain ⟨m, hm1, hm2, hm⟩ := h2.inside k hk1 hk2
    obtain ⟨n, hn1, hn2, hn⟩ := h1.inside m hm1 hm2
    exact ⟨n, hn1, hn2, hm.trans hn⟩

theorem Within.mono {a b a2 b2 : Nat} {d d2 : Deck} (h : Within a b d d2) (ha : a2 ≤ a)
    (hb : b ≤ b2) : Within a2 b2 d d2 := by
  refine ⟨h.perm, ?_, ?_⟩
  · intro k hk
    exact h.outside k (by omega)
  · intro k hk1 hk2
    by_cases hin : a ≤ k ∧ k < b
    · obtain ⟨m, hm1, hm2, hm⟩ := h.inside k hin.1 hin.2
      exact ⟨m, by omega, by omega, hm⟩
    · exact ⟨k, hk1, hk2, h.outside k (by omega)⟩

theorem Within.swap (a b : Nat) (d : Deck) (i j : Nat) (hb : b ≤ d.length) (hi1 : a ≤ i)
    (hi2 : i < b) (hj1 : a ≤ j) (hj2 : j < b) : Within a b d (swapAt d i j) := by
  have hi : i < d.length := by omega
  have hj : j < d.length := by omega
  refine ⟨swapAt_perm d i j, ?_, ?_⟩
  · intro k hk
    rw [swapAt_getElem? d i j k hi hj]
    have h1 : ¬ k = j := by omega
    have h2 : ¬ k = i := by omega
    simp [h1, h2]
  · intro k hk1 hk2
    rw [swapAt_getElem? d i j k hi hj]
    by_cases h1 : k = j
    · exact ⟨i, hi1, hi2, by simp [h1]⟩
    · by_cases h2 : k = i
      · subst h2
        exact ⟨j, hj1, hj2, by simp [h1]⟩
      · exact ⟨k, hk1, hk2, by simp [h1, h2]⟩

theorem Within.cardAt_outside {a b : Nat} {d d2 : Deck} (h : Within a b d d2) (k : Nat)
    (hk : k < a ∨ b ≤ k) : cardAt d2 k = cardAt d k :=
  cardAt_congr (h.outside k hk)

theorem Within.forall_inside {a b : Nat} {d d2 : Deck} (h : Within a b d d2)
    (P : Card → Prop) (hP : ∀ m, a ≤ m → m < b → P (cardAt d m)) :
    ∀ k, a ≤ k → k < b → P (cardAt d2 k) := by
  intro k hk1 hk2
  obtain ⟨m, hm1, hm2, hm⟩ := h.inside k hk1 hk2
  rw [cardAt_congr hm]
  exact hP m hm1 hm2

theorem Within.lowerBound {lt : Card → Card → Bool} {a b a2 b2 : Nat} {d d2 : Deck}
    (h : Within a2 b2 d d2) (ha : a ≤ a2) (hb : b2 ≤ b) (hl : LowerBound lt d a b) :
    LowerBound lt d2 a b := by
  intro h0 k hk1 hk2
  have hw : Within a b d d2 := h.mono ha hb
  rw [hw.cardAt_outside (a - 1) (Or.inl (by omega))]
  exact hw.forall_inside (fun c => lt c (cardAt d (a - 1)) = false)
    (fun m hm1 hm2 => hl h0 m hm1 hm2) k hk1 hk2

theorem SortedOn.of_within_outside {lt : Card → Card → Bool} {a b a2 b2 : Nat} {d d2 : Deck}
    (h : Within a2 b2 d d2) (hs : SortedOn lt d a b) (hd : b ≤ a2 ∨ b2 ≤ a) :
    SortedOn lt d2 a b := by
  intro i j hi hij hj
  rw [h.cardAt_outside i (by omega), h.cardAt_outside j (by omega)]
  exact hs i j hi hij hj

/-! ## Insertion sort -/

theorem insertDown_spec (lt : Card → Card → Bool) (hlt : StrictWeak lt) (a i : Nat) :
    ∀ (j : Nat) (d : Deck), a ≤ j → j ≤ i → i < d.length →
      (∀ p q, a ≤ p → p < q → q ≤ i → p ≠ j → q ≠ j →
        lt (cardAt d q) (cardAt d p) = false) →
      (∀ q, j < q → q ≤ i → lt (cardAt d q) (cardAt d j) = false) →
      Within a (i + 1) d (insertDown (onCards lt) a j d) ∧
      SortedOn lt (insertDown (onCards lt) a j d) a (i + 1) := by
  intro j
  induction j with
  | zero =>
    intro d ha _ _ h1 h2
    refine ⟨Within.refl _ _ _, ?_⟩
    intro p q hp hpq hq
    by_cases hp0 : p = 0
    · subst hp0
      exact h2 q hpq (by omega)
    · exact h1 p q hp hpq (by omega) hp0 (by omega)
  | succ j ih =>
    intro d ha hji hid h1 h2
    have hj1 : j + 1 < d.length := by omega
    have hj0 : j < d.length := by omega
    by_cases hc : a < j + 1 ∧ onCards lt d (j + 1) j = true
    · have hless : lt (cardAt d (j + 1)) (cardAt d j) = true := by
        rw [← onCards_eq lt d (j + 1) j hj1 hj0]
        exact hc.2
      have hsw : Within a (i + 1) d (swapAt d (j + 1) j) :=
        Within.swap a (i + 1) d (j + 1) j (by omega) (by omega) (by omega) (by omega) (by omega)
      have hlen : (swapAt d (j + 1) j).length = d.length := swapAt_length _ _ _
      have hrec := ih (swapAt d (j + 1) j) (by omega) (by omega) (by omega) ?_ ?_
      · have hd : insertDown (onCards lt) a (j + 1) d =
            insertDown (onCards lt) a j (swapAt d (j + 1) j) := by
          simp only [insertDown, hc, and_self, if_true]
        rw [hd]
        exact ⟨hsw.trans hrec.1, hrec.2⟩
      · intro p q hp hpq hq hpj hqj
        rw [cardAt_swapAt d (j + 1) j q hj1 hj0, cardAt_swapAt d (j + 1) j p hj1 hj0]
        simp only [hpj, hqj, if_false]
        by_cases hq1 : q = j + 1
        · have hp1 : ¬ p = j + 1 := by omega
          simp only [hq1, hp1, if_true, if_false]
          exact h1 p j hp (by omega) (by omega) (by omega) (by omega)
        · by_cases hp1 : p = j + 1
          · simp only [hq1, hp1, if_true, if_false]
            exact h1 j q (by omega) (by omega) hq (by omega) hq1
          · simp only [hq1, hp1, if_false]
            exact h1 p q hp hpq hq hp1 hq1
      · intro q hjq hq
        rw [cardAt_swapAt d (j + 1) j q hj1 hj0, cardAt_swapAt d (j + 1) j j hj1 hj0]
        have hqj : ¬ q = j := by omega
        simp only [hqj, if_true, if_false]
        by_cases hq1 : q = j + 1
        · simp only [hq1, if_true]
          exact hlt.asymm _ _ hless
        · simp only [hq1, if_false]
          exact h2 q (by omega) hq
    · have hd : insertDown (onCards lt) a (j + 1) d = d := by
        simp only [insertDown, hc, if_false]
      rw [hd]
      refine ⟨Within.refl _ _ _, ?_⟩
      intro p q hp hpq hq
      by_cases hp1 : p = j + 1
      · subst hp1
        exact h2 q hpq (by omega)
      · by_cases hq1 : q = j + 1
        · subst hq1
          have haj : a < j + 1 := by omega
          have hnl : lt (cardAt d (j + 1)) (cardAt d j) = false := by
            rw [← onCards_eq lt d (j + 1) j hj1 hj0]
            cases hv : onCards lt d (j + 1) j
            · rfl
            · exact absurd ⟨haj, hv⟩ hc
          by_cases hpj : p = j
          · subst hpj
            exact hnl
          · have := h1 p j hp (by omega) (by omega) hp1 (by omega)
            exact hlt.le_trans _ _ _ this hnl
        · exact h1 p q hp hpq (by omega) hp1 hq1

theorem SortedOn.extend {lt : Card → Card → Bool} (hlt : StrictWeak lt) {d : Deck} {a i : Nat}
    (hs : SortedOn lt d a i) (hi : a < i)
    (hl : lt (cardAt d i) (cardAt d (i - 1)) = false) : SortedOn lt d a (i + 1) := by
  intro p q hp hpq hq
  by_cases hqi : q = i
  · subst hqi
    by_cases hp1 : p = q - 1
    · subst hp1
      exact hl
    · have := hs p (q - 1) hp (by omega) (by omega)
      exact hlt.le_trans _ _ _ this hl
  · exact hs p q hp hpq (by omega)

theorem insertionSortFrom_spec (lt : Card → Card → Bool) (hlt : StrictWeak lt) (a : Nat) :
    ∀ (k i : Nat) (d : Deck), a < i → i + k ≤ d.length → SortedOn lt d a i →
      Within a (i + k) d (insertionSortFrom (onCards lt) a k i d) ∧
      SortedOn lt (insertionSortFrom (onCards lt) a k i d) a (i + k) := by
  intro k
  induction k with
  | zero =>
    intro i d _ _ hs
    exact ⟨Within.refl _ _ _, hs⟩
  | succ k ih =>
    intro i d hai hlen hs
    have h1 := insertDown_spec lt hlt a i i d (by omega) (by omega) (by omega)
      (fun p q hp hpq hq _ hqi => hs p q hp hpq (by omega))
      (fun q hiq hq => by omega)
    have hl : (insertDown (onCards lt) a i d).length = d.length := h1.1.length_eq
    have h2 := ih (i + 1) (insertDown (onCards lt) a i d) (by omega) (by omega) h1.2
    have he : i + 1 + k = i + (k + 1) := by omega
    rw [he] at h2
    exact ⟨(h1.1.mono (Nat.le_refl a) (by omega)).trans h2.1, h2.2⟩

theorem insertionSortFunc_spec (lt : Card → Card → Bool) (hlt : StrictWeak lt) (a b : Nat)
    (d : Deck) (hab : a ≤ b) (hb : b ≤ d.length) :
    Within a b d (insertionSortFunc (onCards lt) a b d) ∧
    SortedOn lt (insertionSortFunc (onCards lt) a b d) a b := by
  unfold insertionSortFunc
  by_cases h : a + 1 ≤ b
  · have h1 := insertionSortFrom_spec lt hlt a (b - (a + 1)) (a + 1) d (by omega) (by omega)
      (fun p q hp hpq hq => by omega)
    have he : a + 1 + (b - (a + 1)) = b := by omega
    rw [he] at h1
    exact h1
  · have he : b - (a + 1) = 0 := by omega
    rw [he]
    exact ⟨Within.refl _ _ _, fun p q hp hpq hq => by omega⟩

/-! ## Partition -/

theorem scanUp_spec (p : Nat → Bool) (j : Nat) :
    ∀ (fuel i : Nat), j + 1 - i ≤ fuel → i ≤ j + 1 →
      i ≤ scanUp p j fuel i ∧ scanUp p j fuel i ≤ j + 1 ∧
      (∀ k, i ≤ k → k < scanUp p j fuel i → p k = true) ∧
      (scanUp p j fuel i ≤ j → p (scanUp p j fuel i) = false) := by
  intro fuel
  induction fuel with
  | zero =>
    intro i h1 h2
    refine ⟨Nat.le_refl _, h2, ?_, ?_⟩
    · intro k hk1 hk2
      simp only [scanUp] at hk2
      omega
    · intro h
      simp only [scanUp] at h
      omega
  | succ fuel ih =>
    intro i h1 h2
    by_cases hc : i ≤ j ∧ p i = true
    · have hd : scanUp p j (fuel + 1) i = scanUp p j fuel (i + 1) := by
        simp only [scanUp, hc, and_self, if_true]
      rw [hd]
      obtain ⟨r1, r2, r3, r4⟩ := ih (i + 1) (by omega) (by omega)
      refine ⟨by omega, r2, ?_, r4⟩
      intro k hk1 hk2
      by_cases hki : k = i
      · subst hki
        exact hc.2
      · exact r3 k (by omega) hk2
    · have hd : scanUp p j (fuel + 1) i = i := by
        simp only [scanUp, hc, if_false]
      rw [hd]
      refine ⟨Nat.le_refl _, h2, fun k hk1 hk2 => by omega, ?_⟩
      intro hij
      cases hv : p i
      · rfl
      · exact absurd ⟨hij, hv⟩ hc

theorem scanDown_spec (p : Nat → Bool) (i : Nat) (hi : 1 ≤ i) :
    ∀ (j : Nat), i ≤ j + 1 →
      scanDown p i j ≤ j ∧ i ≤ scanDown p i j + 1 ∧
      (∀ k, scanDown p i j < k → k ≤ j → p k = true) ∧
      (i ≤ scanDown p i j → p (scanDown p i j) = false) := by
  intro j
  induction j with
  | zero =>
    intro h
    refine ⟨Nat.le_refl _, by simp only [scanDown]; omega, ?_, ?_⟩
    · intro k hk1 hk2
      simp only [scanDown] at hk1
      omega
    · intro h2
      simp only [scanDown] at h2
      omega
  | succ j ih =>
    intro h
    by_cases hc : i ≤ j + 1 ∧ p (j + 1) = true
    · have hd : scanDown p i (j + 1) = scanDown p i j := by
        simp only [scanDown, hc, and_self, if_true]
      rw [hd]
      obtain ⟨r1, r2, r3, r4⟩ := ih hc.1
      refine ⟨by omega, r2, ?_, r4⟩
      intro k hk1 hk2
      by_cases hkj : k = j + 1
      · subst hkj
        exact hc.2
      · exact r3 k hk1 (by omega)
    · have hd : scanDown p i (j + 1) = j + 1 := by
        simp only [scanDown, hc, if_false]
      rw [hd]
      refine ⟨Nat.le_refl _, h, fun k hk1 hk2 => by omega, ?_⟩
      intro hij
      cases hv : p (j + 1)
      · rfl
      · exact absurd ⟨hij, hv⟩ hc

theorem partitionLoop_spec (lt : Card → Card → Bool) (a b : Nat) :
    ∀ (fuel i j : Nat) (d : Deck), a + 1 ≤ i → i ≤ j + 1 → j + 1 ≤ b → b ≤ d.length →
      j + 1 - i ≤ fuel →
      (∀ k, a + 1 ≤ k → k < i → lt (cardAt d k) (cardAt d a) = true) →
      (∀ k, j < k → k < b → lt (cardAt d k) (cardAt d a) = false) →
      Within (a + 1) b d (partitionLoop (onCards lt) a fuel i j d).2.2 ∧
      a ≤ (partitionLoop (onCards lt) a fuel i j d).2.1 ∧
      (partitionLoop (onCards lt) a fuel i j d).2.1 < b ∧
      (∀ k, a + 1 ≤ k → k ≤ (partitionLoop (onCards lt) a fuel i j d).2.1 →
        lt (cardAt (partitionLoop (onCards lt) a fuel i j d).2.2 k)
          (cardAt (partitionLoop (onCards lt) a fuel i j d).2.2 a) = true) ∧
      (∀ k, (partitionLoop (onCards lt) a fuel i j d).2.1 < k → k < b →
        lt (cardAt (partitionLoop (onCards lt) a fuel i j d).2.2 k)
          (cardAt (partitionLoop (onCards lt) a fuel i j d).2.2 a) = false) := by
  intro fuel
  induction fuel with
  | zero =>
    intro i j d h1 h2 h3 h4 h5 h6 h7
    simp only [partitionLoop]
    refine ⟨Within.refl _ _ _, by omega, by omega, ?_, h7⟩
    intro k hk1 hk2
    exact h6 k hk1 (by omega)
  | succ fuel ih =>
    intro i j d h1 h2 h3 h4 h5 h6 h7
    obtain ⟨u1, u2, u3, u4⟩ :=
      scanUp_spec (fun k => onCards lt d k a) j (j + 1 - i) i (Nat.le_refl _) h2
    generalize hi2 : scanUp (fun k => onCards lt d k a) j (j + 1 - i) i = i2 at u1 u2 u3 u4
    obtain ⟨v1, v2, v3, v4⟩ :=
      scanDown_spec (fun k => !onCards lt d k a) i2 (by omega) j u2
    generalize hj2 : scanDown (fun k => !onCards lt d k a) i2 j = j2 at v1 v2 v3 v4
    have hlo : ∀ k, a + 1 ≤ k → k < i2 → lt (cardAt d k) (cardAt d a) = true := by
      intro k hk1 hk2
      by_cases hki : k < i
      · exact h6 k hk1 hki
      · have := u3 k (by omega) hk2
        rw [onCards_eq lt d k a (by omega) (by omega)] at this
        exact this
    have hhi : ∀ k, j2 < k → k < b → lt (cardAt d k) (cardAt d a) = false := by
      intro k hk1 hk2
      by_cases hkj : j < k
      · exact h7 k hkj hk2
      · have := v3 k hk1 (by omega)
        rw [onCards_eq lt d k a (by omega) (by omega)] at this
        simpa using this
    by_cases hc : j2 < i2
    · have hd : partitionLoop (onCards lt) a (fuel + 1) i j d = (i2, j2, d) := by
        simp only [partitionLoop, hi2, hj2, hc, if_true]
      rw [hd]
      dsimp only
      refine ⟨Within.refl _ _ _, by omega, by omega, ?_, hhi⟩
      intro k hk1 hk2
      exact hlo k hk1 (by omega)
    · have hd : partitionLoop (onCards lt) a (fuel + 1) i j d =
          partitionLoop (onCards lt) a fuel (i2 + 1) (j2 - 1) (swapAt d i2 j2) := by
        simp only [partitionLoop, hi2, hj2, hc, if_false]
      have hi2len : i2 < d.length := by omega
      have hj2len : j2 < d.length := by omega
      have hpi : lt (cardAt d i2) (cardAt d a) = false := by
        have := u4 (by omega)
        rw [onCards_eq lt d i2 a hi2len (by omega)] at this
        exact this
      have hpj : lt (cardAt d j2) (cardAt d a) = true := by
        have := v4 (by omega)
        rw [onCards_eq lt d j2 a hj2len (by omega)] at this
        simpa using this
      have hne : i2 ≠ j2 := by
        intro e
        rw [e, hpj] at hpi
        exact absurd hpi (by simp)
      have hsw : Within (a + 1) b d (swapAt d i2 j2) :=
        Within.swap (a + 1) b d i2 j2 h4 (by omega) (by omega) (by omega) (by omega)
      have hca : cardAt (swapAt d i2 j2) a = cardAt d a :=
        hsw.cardAt_outside a (Or.inl (by omega))
      rw [hd]
      have hrec := ih (i2 + 1) (j2 - 1) (swapAt d i2 j2) (by omega) (by omega) (by omega)
        (by rw [swapAt_length]; exact h4) (by omega) ?_ ?_
      · exact ⟨hsw.trans hrec.1, hrec.2⟩
      · intro k hk1 hk2
        rw [hca, cardAt_swapAt d i2 j2 k hi2len hj2len]
        have hkj : ¬ k = j2 := by omega
        simp only [hkj, if_false]
        by_cases hki : k = i2
        · simp only [hki, if_true]
          exact hpj
        · simp only [hki, if_false]
          exact hlo k hk1 (by omega)
      · intro k hk1 hk2
        rw [hca, cardAt_swapAt d i2 j2 k hi2len hj2len]
        by_cases hkj : k = j2
        · simp only [hkj, if_true]
          exact hpi
        · have hki : ¬ k = i2 := by omega
          simp only [hkj, hki, if_false]
          exact hhi k (by omega) hk2

theorem partition_final (lt : Card → Card → Bool) (a b mid : Nat) (d : Deck)
    (hb : b ≤ d.length) (h1 : a ≤ mid) (h2 : mid < b)
    (hlo : ∀ k, a + 1 ≤ k → k ≤ mid → lt (cardAt d k) (cardAt d a) = true)
    (hhi : ∀ k, mid < k → k < b → lt (cardAt d k) (cardAt d a) = false) :
    Within a b d (swapAt d mid a) ∧
    (∀ k, a ≤ k → k < mid →
      lt (cardAt (swapAt d mid a) k) (cardAt (swapAt d mid a) mid) = true) ∧
    (∀ k, mid < k → k < b →
      lt (cardAt (swapAt d mid a) k) (cardAt (swapAt d mid a) mid) = false) := by
  have hm : mid < d.length := by omega
  have ha : a < d.length := by omega
  have hmid : cardAt (swapAt d mid a) mid = cardAt d a := by
    rw [cardAt_swapAt d mid a mid hm ha]
    by_cases h : mid = a
    · simp [h]
    · simp [h]
  refine ⟨Within.swap a b d mid a hb h1 h2 (Nat.le_refl _) (by omega), ?_, ?_⟩
  · intro k hk1 hk2
    rw [hmid, cardAt_swapAt d mid a k hm ha]
    by_cases hka : k = a
    · simp only [hka, if_true]
      exact hlo mid (by omega) (Nat.le_refl _)
    · have hkm : ¬ k = mid := by omega
      simp only [hka, hkm, if_false]
      exact hlo k (by omega) (by omega)
  · intro k hk1 hk2
    rw [hmid, cardAt_swapAt d mid a k hm ha]
    have hka : ¬ k = a := by omega
    have hkm : ¬ k = mid := by omega
    simp only [hka, hkm, if_false]
    exact hhi k hk1 hk2

theorem partitionFunc_spec (lt : Card → Card → Bool) (a b pivot : Nat) (d : Deck)
    (hab : a < b) (hb : b ≤ d.length) (hp1 : a ≤ pivot) (hp2 : pivot < b) :
    Within a b d (partitionFunc (onCards lt) a b pivot d).2.2 ∧
    a ≤ (partitionFunc (onCards lt) a b pivot d).1 ∧
    (partitionFunc (onCards lt) a b pivot d).1 < b ∧
    (∀ k, a ≤ k → k < (partitionFunc (onCards lt) a b pivot d).1 →
      lt (cardAt (partitionFunc (onCards lt) a b pivot d).2.2 k)
        (cardAt (partitionFunc (onCards lt) a b pivot d).2.2
          (partitionFunc (onCards lt) a b pivot d).1) = true) ∧
    (∀ k, (partitionFunc (onCards lt) a b pivot d).1 < k → k < b →
      lt (cardAt (partitionFunc (onCards lt) a b pivot d).2.2 k)
        (cardAt (partitionFunc (onCards lt) a b pivot d).2.2
          (partitionFunc (onCards lt) a b pivot d).1) = false) := by
  have hw1 : Within a b d (swapAt d a pivot) :=
    Within.swap a b d a pivot hb (Nat.le_refl _) hab hp1 hp2
  have hl1 : (swapAt d a pivot).length = d.length := swapAt_length _ _ _
  generalize hd1 : swapAt d a pivot = d1 at hw1 hl1
  have hb1 : b ≤ d1.length := by omega
  obtain ⟨u1, u2, u3, u4⟩ :=
    scanUp_spec (fun k => onCards lt d1 k a) (b - 1) (b - 1 + 1 - (a + 1)) (a + 1)
      (Nat.le_refl _) (by omega)
  generalize hi : scanUp (fun k => onCards lt d1 k a) (b - 1) (b - 1 + 1 - (a + 1)) (a + 1) = i
    at u1 u2 u3 u4
  obtain ⟨v1, v2, v3, v4⟩ :=
    scanDown_spec (fun k => !onCards lt d1 k a) i (by omega) (b - 1) u2
  generalize hj : scanDown (fun k => !onCards lt d1 k a) i (b - 1) = j at v1 v2 v3 v4
  have hlo : ∀ k, a + 1 ≤ k → k < i → lt (cardAt d1 k) (cardAt d1 a) = true := by
    intro k hk1 hk2
    have := u3 k hk1 hk2
    rw [onCards_eq lt d1 k a (by omega) (by omega)] at this
    exact this
  have hhi : ∀ k, j < k → k < b → lt (cardAt d1 k) (cardAt d1 a) = false := by
    intro k hk1 hk2
    have := v3 k hk1 (by omega)
    rw [onCards_eq lt d1 k a (by omega) (by omega)] at this
    simpa using this
  by_cases hc : j < i
  · have hd : partitionFunc (onCards lt) a b pivot d = (j, true, swapAt d1 j a) := by
      simp only [partitionFunc, hd1, hi, hj, hc, if_true]
    rw [hd]
    dsimp only
    obtain ⟨w1, w2, w3⟩ := partition_final lt a b j d1 hb1 (by omega) (by omega)
      (fun k hk1 hk2 => hlo k hk1 (by omega)) hhi
    exact ⟨hw1.trans w1, by omega, by omega, w2, w3⟩
  · have hd : partitionFunc (onCards lt) a b pivot d =
        ((partitionLoop (onCards lt) a (j - i) (i + 1) (j - 1) (swapAt d1 i j)).2.1, false,
          swapAt (partitionLoop (onCards lt) a (j - i) (i + 1) (j - 1) (swapAt d1 i j)).2.2
            (partitionLoop (onCards lt) a (j - i) (i + 1) (j - 1) (swapAt d1 i j)).2.1 a) := by
      simp only [partitionFunc, hd1, hi, hj, hc, if_false]
    have hilen : i < d1.length := by omega
    have hjlen : j < d1.length := by omega
    have hpi : lt (cardAt d1 i) (cardAt d1 a) = false := by
      have := u4 (by omega)
      rw [onCards_eq lt d1 i a hilen (by omega)] at this
      exact this
    have hpj : lt (cardAt d1 j) (cardAt d1 a) = true := by
      have := v4 (by omega)
      rw [onCards_eq lt d1 j a hjlen (by omega)] at this
      simpa using this
    have hne : i ≠ j := by
      intro e
      rw [e, hpj] at hpi
      exact absurd hpi (by simp)
    have hsw : Within (a + 1) b d1 (swapAt d1 i j) :=
      Within.swap (a + 1) b d1 i j hb1 (by omega) (by omega) (by omega) (by omega)
    have hca : cardAt (swapAt d1 i j) a = cardAt d1 a :=
      hsw.cardAt_outside a (Or.inl (by omega))
    have hrec := partitionLoop_spec lt a b (j - i) (i + 1) (j - 1) (swapAt d1 i j)
      (by omega) (by omega) (by omega) (by rw [swapAt_length]; exact hb1) (by omega) ?_ ?_
    · rw [hd]
      dsimp only
      generalize partitionLoop (onCards lt) a (j - i) (i + 1) (j - 1) (swapAt d1 i j) = r
        at hrec
      obtain ⟨r1, r2, r3, r4, r5⟩ := hrec
      have hb3 : b ≤ r.2.2.length := by
        rw [r1.length_eq, swapAt_length]
        exact hb1
      obtain ⟨w1, w2, w3⟩ := partition_final lt a b r.2.1 r.2.2 hb3 r2 r3 r4 r5
      exact ⟨hw1.trans (((hsw.trans r1).mono (by omega) (Nat.le_refl _)).trans w1),
        r2, r3, w2, w3⟩
    · intro k hk1 hk2
      rw [hca, cardAt_swapAt d1 i j k hilen hjlen]
      have hkj : ¬ k = j := by omega
      simp only [hkj, if_false]
      by_cases hki : k = i
      · simp only [hki, if_true]
        exact hpj
      · simp only [hki, if_false]
        exact hlo k hk1 (by omega)
    · intro k hk1 hk2
      rw [hca, cardAt_swapAt d1 i j k hilen hjlen]
      by_cases hkj : k = j
      · simp only [hkj, if_true]
        exact hpi
      · have hki : ¬ k = i := by omega
        simp only [hkj, hki, if_false]
        exact hhi k (by omega) hk2

theorem partitionEqualLoop_spec (lt : Card → Card → Bool) (a b : Nat) :
    ∀ (fuel i j : Nat) (d : Deck), a + 1 ≤ i → i ≤ j + 1 → j + 1 ≤ b → b ≤ d.length →
      j + 1 - i ≤ fuel →
      (∀ k, a + 1 ≤ k → k < i → lt (cardAt d a) (cardAt d k) = false) →
      (∀ k, j < k → k < b → lt (cardAt d a) (cardAt d k) = true) →
      Within (a + 1) b d (partitionEqualLoop (onCards lt) a fuel i j d).2 ∧
      a + 1 ≤ (partitionEqualLoop (onCards lt) a fuel i j d).1 ∧
      (partitionEqualLoop (onCards lt) a fuel i j d).1 ≤ b ∧
      (∀ k, a + 1 ≤ k → k < (partitionEqualLoop (onCards lt) a fuel i j d).1 →
        lt (cardAt (partitionEqualLoop (onCards lt) a fuel i j d).2 a)
          (cardAt (partitionEqualLoop (onCards lt) a fuel i j d).2 k) = false) ∧
      (∀ k, (partitionEqualLoop (onCards lt) a fuel i j d).1 ≤ k → k < b →
        lt (cardAt (partitionEqualLoop (onCards lt) a fuel i j d).2 a)
          (cardAt (partitionEqualLoop (onCards lt) a fuel i j d).2 k) = true) := by
  intro fuel
  induction fuel with
  | zero =>
    intro i j d h1 h2 h3 h4 h5 h6 h7
    simp only [partitionEqualLoop]
    refine ⟨Within.refl _ _ _, by omega, by omega, h6, ?_⟩
    intro k hk1 hk2
    exact h7 k (by omega) hk2
  | succ fuel ih =>
    intro i j d h1 h2 h3 h4 h5 h6 h7
    obtain ⟨u1, u2, u3, u4⟩ :=
      scanUp_spec (fun k => !onCards lt d a k) j (j + 1 - i) i (Nat.le_refl _) h2
    generalize hi2 : scanUp (fun k => !onCards lt d a k) j (j + 1 - i) i = i2 at u1 u2 u3 u4
    obtain ⟨v1, v2, v3, v4⟩ :=
      scanDown_spec (fun k => onCards lt d a k) i2 (by omega) j u2
    generalize hj2 : scanDown (fun k => onCards lt d a k) i2 j = j2 at v1 v2 v3 v4
    have hlo : ∀ k, a + 1 ≤ k → k < i2 → lt (cardAt d a) (cardAt d k) = false := by
      intro k hk1 hk2
      by_cases hki : k < i
      · exact h6 k hk1 hki
      · have := u3 k (by omega) hk2
        rw [onCards_eq lt d a k (by omega) (by omega)] at this
        simpa using this
    have hhi : ∀ k, j2 < k → k < b → lt (cardAt d a) (cardAt d k) = true := by
      intro k hk1 hk2
      by_cases hkj : j < k
      · exact h7 k hkj hk2
      · have := v3 k hk1 (by omega)
        rw [onCards_eq lt d a k (by omega) (by omega)] at this
        exact this
    by_cases hc : j2 < i2
    · have hd : partitionEqualLoop (onCards lt) a (fuel + 1) i j d = (i2, d) := by
        simp only [partitionEqualLoop, hi2, hj2, hc, if_true]
      rw [hd]
      dsimp only
      refine ⟨Within.refl _ _ _, by omega, by omega, hlo, ?_⟩
      intro k hk1 hk2
      exact hhi k (by omega) hk2
    · have hd : partitionEqualLoop (onCards lt) a (fuel + 1) i j d =
          partitionEqualLoop (onCards lt) a fuel (i2 + 1) (j2 - 1) (swapAt d i2 j2) := by
        simp only [partitionEqualLoop, hi2, hj2, hc, if_false]
      have hi2len : i2 < d.length := by omega
      have hj2len : j2 < d.length := by omega
      have hpi : lt (cardAt d a) (cardAt d i2) = true := by
        have := u4 (by omega)
        rw [onCards_eq lt d a i2 (by omega) hi2len] at this
        simpa using this
      have hpj : lt (cardAt d a) (cardAt d j2) = false := by
        have := v4 (by omega)
        rw [onCards_eq lt d a j2 (by omega) hj2len] at this
        exact this
      have hne : i2 ≠ j2 := by
        intro e
        rw [e, hpj] at hpi
        exact absurd hpi (by simp)
      have hsw : Within (a + 1) b d (swapAt d i2 j2) :=
        Within.swap (a + 1) b d i2 j2 h4 (by omega) (by omega) (by omega) (by omega)
      have hca : cardAt (swapAt d i2 j2) a = cardAt d a :=
        hsw.cardAt_outside a (Or.inl (by omega))
      rw [hd]
      have hrec := ih (i2 + 1) (j2 - 1) (swapAt d i2 j2) (by omega) (by omega) (by omega)
        (by rw [swapAt_length]; exact h4) (by omega) ?_ ?_
      · exact ⟨hsw.trans hrec.1, hrec.2⟩
      · intro k hk1 hk2
        rw [hca, cardAt_swapAt d i2 j2 k hi2len hj2len]
        have hkj : ¬ k = j2 := by omega
        simp only [hkj, if_false]
        by_cases hki : k = i2
        · simp only [hki, if_true]
          exact hpj
        · simp only [hki, if_false]
          exact hlo k hk1 (by omega)
      · intro k hk1 hk2
        rw [hca, cardAt_swapAt d i2 j2 k hi2len hj2len]
        by_cases hkj : k = j2
        · simp only [hkj, if_true]
          exact hpi
        · have hki : ¬ k = i2 := by omega
          simp only [hkj, hki, if_false]
          exact hhi k (by omega) hk2

theorem partitionEqualFunc_spec (lt : Card → Card → Bool) (hlt : StrictWeak lt)
    (a b pivot : Nat) (d : Deck) (hab : a < b) (hb : b ≤ d.length) (hp1 : a ≤ pivot)
    (hp2 : pivot < b) :
    Within a b d (partitionEqualFunc (onCards lt) a b pivot d).2 ∧
    a + 1 ≤ (partitionEqualFunc (onCards lt) a b pivot d).1 ∧
    (partitionEqualFunc (onCards lt) a b pivot d).1 ≤ b ∧
    (∀ k, a ≤ k → k < (partitionEqualFunc (onCards lt) a b pivot d).1 →
      lt (cardAt d pivot) (cardAt (partitionEqualFunc (onCards lt) a b pivot d).2 k) = false) ∧
    (∀ k, (partitionEqualFunc (onCards lt) a b pivot d).1 ≤ k → k < b →
      lt (cardAt d pivot) (cardAt (partitionEqualFunc (onCards lt) a b pivot d).2 k) = true) := by
  have hw1 : Within a b d (swapAt d a pivot) :=
    Within.swap a b d a pivot hb (Nat.le_refl _) hab hp1 hp2
  have hca : cardAt (swapAt d a pivot) a = cardAt d pivot := by
    rw [cardAt_swapAt d a pivot a (by omega) (by omega)]
    by_cases h : a = pivot
    · simp [h]
    · simp [h]
  have hrec := partitionEqualLoop_spec lt a b (b - a) (a + 1) (b - 1) (swapAt d a pivot)
    (Nat.le_refl _) (by omega) (by omega) (by rw [swapAt_length]; exact hb) (by omega)
    (fun k hk1 hk2 => by omega) (fun k hk1 hk2 => by omega)
  unfold partitionEqualFunc
  generalize partitionEqualLoop (onCards lt) a (b - a) (a + 1) (b - 1) (swapAt d a pivot) = r
    at hrec
  obtain ⟨r1, r2, r3, r4, r5⟩ := hrec
  have hra : cardAt r.2 a = cardAt d pivot := by
    rw [r1.cardAt_outside a (Or.inl (by omega)), hca]
  refine ⟨hw1.trans (r1.mono (by omega) (Nat.le_refl _)), r2, r3, ?_, ?_⟩
  · intro k hk1 hk2
    by_cases hka : k = a
    · rw [hka, hra]
      exact hlt.irrefl _
    · rw [← hra]
      exact r4 k (by omega) hk2
  · intro k hk1 hk2
    rw [← hra]
    exact r5 k hk1 hk2

/-! ## Pivot choice, pattern breaking, reversal -/

theorem reverseLoop_within (a b : Nat) :
    ∀ (fuel i j : Nat) (d : Deck), a ≤ i → j < b → b ≤ d.length →
      Within a b d (reverseLoop fuel i j d) := by
  intro fuel
  induction fuel with
  | zero =>
    intro i j d _ _ _
    exact Within.refl _ _ _
  | succ fuel ih =>
    intro i j d h1 h2 h3
    by_cases hc : i < j
    · have hd : reverseLoop (fuel + 1) i j d = reverseLoop fuel (i + 1) (j - 1) (swapAt d i j) := by
        simp only [reverseLoop, hc, if_true]
      rw [hd]
      exact (Within.swap a b d i j h3 h1 (by omega) (by omega) h2).trans
        (ih (i + 1) (j - 1) (swapAt d i j) (by omega) (by omega)
          (by rw [swapAt_length]; exact h3))
    · have hd : reverseLoop (fuel + 1) i j d = d := by
        simp only [reverseLoop, hc, if_false]
      rw [hd]
      exact Within.refl _ _ _

theorem reverseRangeFunc_within (a b : Nat) (d : Deck) (hab : a < b) (hb : b ≤ d.length) :
    Within a b d (reverseRangeFunc a b d) :=
  reverseLoop_within a b (b - a) a (b - 1) d (Nat.le_refl _) (by omega) hb

theorem nextPowerOfTwo_le (n : Nat) (h : 0 < n) : nextPowerOfTwo n ≤ 2 * n := by
  unfold nextPowerOfTwo bitsLen
  have hn : n ≠ 0 := by omega
  have := Nat.log2_self_le hn
  simp only [hn, if_false, Nat.pow_succ]
  omega

theorem breakLoop_within (a b : Nat) (hab : 8 ≤ b - a) :
    ∀ (k i random : Nat) (d : Deck), i + k ≤ 3 → b ≤ d.length →
      Within a b d (breakLoop a (b - a) (nextPowerOfTwo (b - a))
        (a + (b - a) / 4 * 2 - 1) k i random d) := by
  intro k
  induction k with
  | zero =>
    intro i random d _ _
    exact Within.refl _ _ _
  | succ k ih =>
    intro i random d h1 h2
    simp only [breakLoop]
    have hm := nextPowerOfTwo_le (b - a) (by omega)
    have hand : xorshiftNext random &&& (nextPowerOfTwo (b - a) - 1) ≤
        nextPowerOfTwo (b - a) - 1 := Nat.and_le_right
    have hpos : 0 < nextPowerOfTwo (b - a) := by
      unfold nextPowerOfTwo
      exact Nat.pos_pow_of_pos _ (by omega)
    generalize xorshiftNext random &&& (nextPowerOfTwo (b - a) - 1) = other at hand
    have hother : (if b - a ≤ other then other - (b - a) else other) < b - a := by
      split <;> omega
    generalize (if b - a ≤ other then other - (b - a) else other) = other2 at hother
    exact (Within.swap a b d _ _ h2 (by omega) (by omega) (by omega) (by omega)).trans
      (ih (i + 1) _ _ (by omega) (by rw [swapAt_length]; exact h2))

theorem breakPatternsFunc_within (a b : Nat) (d : Deck) (hb : b ≤ d.length) :
    Within a b d (breakPatternsFunc a b d) := by
  unfold breakPatternsFunc
  by_cases h : 8 ≤ b - a
  · simp only [h, if_true]
    exact breakLoop_within a b h 3 0 (b - a) d (by omega) hb
  · simp only [h, if_false]
    exact Within.refl _ _ _

theorem medianFunc_range (less : LessFunc) (d : Deck) (x y z s lo hi : Nat)
    (hx : lo ≤ x ∧ x < hi) (hy : lo ≤ y ∧ y < hi) (hz : lo ≤ z ∧ z < hi) :
    lo ≤ (medianFunc less d x y z s).1 ∧ (medianFunc less d x y z s).1 < hi := by
  unfold medianFunc order2Func
  dsimp only
  split_ifs <;> first | exact hx | exact hy | exact hz

theorem choosePivotFunc_range (less : LessFunc) (d : Deck) (a b : Nat) (h : 12 < b - a) :
    a ≤ (choosePivotFunc less d a b).1 ∧ (choosePivotFunc less d a b).1 < b := by
  have h8 : 8 ≤ b - a := by omega
  have hfst : ∀ (r : Nat × Nat),
      (if r.2 = 0 then (r.1, SortedHint.increasingHint)
        else if r.2 = 12 then (r.1, SortedHint.decreasingHint)
        else (r.1, SortedHint.unknownHint)).1 = r.1 := by
    intro r
    split_ifs <;> rfl
  unfold choosePivotFunc
  dsimp only
  rw [hfst]
  simp only [h8, if_true]
  by_cases h50 : 50 ≤ b - a
  · simp only [h50, if_true]
    unfold medianAdjacentFunc
    apply medianFunc_range
    · have := medianFunc_range less d (a + (b - a) / 4 * 1 - 1) (a + (b - a) / 4 * 1)
        (a + (b - a) / 4 * 1 + 1) 0 a b (by omega) (by omega) (by omega)
      exact this
    · exact medianFunc_range less d _ _ _ _ a b (by omega) (by omega) (by omega)
    · exact medianFunc_range less d _ _ _ _ a b (by omega) (by omega) (by omega)
  · simp only [h50, if_false]
    exact medianFunc_range less d _ _ _ _ a b (by omega) (by omega) (by omega)

/-! ## Partial insertion sort -/

theorem scanSorted_spec (lt : Card → Card → Bool) (hlt : StrictWeak lt) (d : Deck)
    (a b : Nat) (hb : b ≤ d.length) :
    ∀ (fuel i : Nat), b - i ≤ fuel → a < i → i ≤ b → SortedOn lt d a i →
      i ≤ scanSorted (onCards lt) d b fuel i ∧ scanSorted (onCards lt) d b fuel i ≤ b ∧
      SortedOn lt d a (scanSorted (onCards lt) d b fuel i) ∧
      (scanSorted (onCards lt) d b fuel i < b →
        lt (cardAt d (scanSorted (onCards lt) d b fuel i))
          (cardAt d (scanSorted (onCards lt) d b fuel i - 1)) = true) := by
  intro fuel
  induction fuel with
  | zero =>
    intro i h1 h2 h3 h4
    simp only [scanSorted]
    exact ⟨Nat.le_refl _, h3, h4, fun h => by omega⟩
  | succ fuel ih =>
    intro i h1 h2 h3 h4
    by_cases hc : i < b ∧ onCards lt d i (i - 1) = false
    · have hd : scanSorted (onCards lt) d b (fuel + 1) i =
          scanSorted (onCards lt) d b fuel (i + 1) := by
        simp only [scanSorted, hc, and_self, if_true]
      rw [hd]
      have hl : lt (cardAt d i) (cardAt d (i - 1)) = false := by
        rw [← onCards_eq lt d i (i - 1) (by omega) (by omega)]
        exact hc.2
      obtain ⟨r1, r2, r3, r4⟩ := ih (i + 1) (by omega) (by omega) (by omega)
        (SortedOn.extend hlt h4 h2 hl)
      exact ⟨by omega, r2, r3, r4⟩
    · have hd : scanSorted (onCards lt) d b (fuel + 1) i = i := by
        simp only [scanSorted, hc, if_false]
      rw [hd]
      refine ⟨Nat.le_refl _, h3, h4, ?_⟩
      intro hib
      rw [← onCards_eq lt d i (i - 1) (by omega) (by omega)]
      cases hv : onCards lt d i (i - 1)
      · exact absurd ⟨hib, hv⟩ hc
      · rfl

theorem shiftSmaller_eq (lt : Card → Card → Bool) (a : Nat) :
    ∀ (j : Nat) (d : Deck), a ≤ j → j < d.length →
      (0 < a → ∀ k, a ≤ k → k ≤ j → lt (cardAt d k) (cardAt d (a - 1)) = false) →
      shiftSmaller (onCards lt) j d = insertDown (onCards lt) a j d := by
  intro j
  induction j with
  | zero =>
    intro d _ _ _
    rfl
  | succ j ih =>
    intro d h1 h2 h3
    by_cases ha : a = j + 1
    · have hf : onCards lt d (j + 1) j = false := by
        rw [onCards_eq lt d (j + 1) j h2 (by omega)]
        have := h3 (by omega) (j + 1) (by omega) (Nat.le_refl _)
        rw [ha] at this
        exact this
      simp [shiftSmaller, insertDown, hf]
    · have haj : a < j + 1 := by omega
      cases hv : onCards lt d (j + 1) j
      · simp [shiftSmaller, insertDown, hv]
      · have hrec := ih (swapAt d (j + 1) j) (by omega) (by rw [swapAt_length]; omega) ?_
        · simp only [shiftSmaller, insertDown, hv, haj, and_self, if_true]
          simpa using hrec
        · intro h0 k hk1 hk2
          rw [cardAt_swapAt d (j + 1) j k h2 (by omega),
            cardAt_swapAt d (j + 1) j (a - 1) h2 (by omega)]
          have e1 : ¬ a - 1 = j := by omega
          have e2 : ¬ a - 1 = j + 1 := by omega
          have e3 : ¬ k = j + 1 := by omega
          simp only [e1, e2, e3, if_false]
          by_cases hkj : k = j
          · simp only [hkj, if_true]
            exact h3 h0 (j + 1) (by omega) (Nat.le_refl _)
          · simp only [hkj, if_false]
            exact h3 h0 k hk1 (by omega)

theorem shiftGreater_within (less : LessFunc) (lo b : Nat) :
    ∀ (fuel j : Nat) (d : Deck), lo + 1 ≤ j → b ≤ d.length →
      Within lo b d (shiftGreater less b fuel j d) := by
  intro fuel
  induction fuel with
  | zero =>
    intro j d _ _
    exact Within.refl _ _ _
  | succ fuel ih =>
    intro j d h1 h2
    simp only [shiftGreater]
    split_ifs with c1 c2
    · exact Within.refl _ _ _
    · exact Within.refl _ _ _
    · exact (Within.swap lo b d j (j - 1) h2 (by omega) (by omega) (by omega) (by omega)).trans
        (ih (j + 1) _ (by omega) (by rw [swapAt_length]; exact h2))

theorem partialInsertionSortFunc_spec (lt : Card → Card → Bool) (hlt : StrictWeak lt)
    (a b : Nat) :
    ∀ (steps i : Nat) (d : Deck), a < i → i ≤ b → b ≤ d.length → SortedOn lt d a i →
      LowerBound lt d a b →
      Within a b d (partialInsertionSortFunc (onCards lt) a b steps i d).2 ∧
      ((partialInsertionSortFunc (onCards lt) a b steps i d).1 = true →
        SortedOn lt (partialInsertionSortFunc (onCards lt) a b steps i d).2 a b) := by
  intro steps
  induction steps with
  | zero =>
    intro i d _ _ _ _ _
    simp only [partialInsertionSortFunc]
    exact ⟨Within.refl _ _ _, fun h => by simp at h⟩
  | succ steps ih =>
    intro i d h1 h2 h3 h4 h5
    obtain ⟨s1, s2, s3, s4⟩ := scanSorted_spec lt hlt d a b h3 (b - i) i (Nat.le_refl _) h1 h2 h4
    generalize hi2 : scanSorted (onCards lt) d b (b - i) i = i2 at s1 s2 s3 s4
    by_cases hc1 : i2 = b
    · have hd : partialInsertionSortFunc (onCards lt) a b (steps + 1) i d = (true, d) := by
        simp only [partialInsertionSortFunc, hi2, hc1, if_true]
      rw [hd]
      exact ⟨Within.refl _ _ _, fun _ => hc1 ▸ s3⟩
    · by_cases hc2 : b - a < 50
      · have hd : partialInsertionSortFunc (onCards lt) a b (steps + 1) i d = (false, d) := by
          simp only [partialInsertionSortFunc, hi2, hc1, hc2, if_true, if_false]
        rw [hd]
        exact ⟨Within.refl _ _ _, fun h => by simp at h⟩
      · have hw1 : Within a b d (swapAt d i2 (i2 - 1)) :=
          Within.swap a b d i2 (i2 - 1) h3 (by omega) (by omega) (by omega) (by omega)
        have hl1 : (swapAt d i2 (i2 - 1)).length = d.length := swapAt_length _ _ _
        generalize hd1 : swapAt d i2 (i2 - 1) = d1 at hw1 hl1
        have hs1 : SortedOn lt d1 a (i2 - 1) := by
          intro p q hp hpq hq
          rw [← hd1, cardAt_swapAt d i2 (i2 - 1) q (by omega) (by omega),
            cardAt_swapAt d i2 (i2 - 1) p (by omega) (by omega)]
          have e1 : ¬ q = i2 - 1 := by omega
          have e2 : ¬ q = i2 := by omega
          have e3 : ¬ p = i2 - 1 := by omega
          have e4 : ¬ p = i2 := by omega
          simp only [e1, e2, e3, e4, if_false]
          exact s3 p q hp hpq (by omega)
        have hlb1 : LowerBound lt d1 a b := hw1.lowerBound (Nat.le_refl _) (Nat.le_refl _) h5
        have hstep2 : ∃ d2, (if 2 ≤ i2 - a then shiftSmaller (onCards lt) (i2 - 1) d1 else d1) = d2 ∧
            Within a i2 d1 d2 ∧ SortedOn lt d2 a i2 := by
          by_cases hc3 : 2 ≤ i2 - a
          · simp only [hc3, if_true]
            have he := shiftSmaller_eq lt a (i2 - 1) d1 (by omega) (by omega)
              (fun h0 k hk1 hk2 => hlb1 h0 k hk1 (by omega))
            rw [he]
            have hsp := insertDown_spec lt hlt a (i2 - 1) (i2 - 1) d1 (by omega) (Nat.le_refl _)
              (by omega) (fun p q hp hpq hq _ hqj => hs1 p q hp hpq (by omega))
              (fun q hq1 hq2 => by omega)
            have e : i2 - 1 + 1 = i2 := by omega
            rw [e] at hsp
            exact ⟨_, rfl, hsp.1, hsp.2⟩
          · simp only [hc3, if_false]
            exact ⟨_, rfl, Within.refl _ _ _, fun p q hp hpq hq => by omega⟩
        obtain ⟨d2, hd2, hw2, hs2⟩ := hstep2
        have hl2 : d2.length = d1.length := hw2.length_eq
        have hstep3 : ∃ d3, (if 2 ≤ b - i2 then
            shiftGreater (onCards lt) b (b - (i2 + 1)) (i2 + 1) d2 else d2) = d3 ∧
            Within i2 b d2 d3 := by
          by_cases hc4 : 2 ≤ b - i2
          · simp only [hc4, if_true]
            exact ⟨_, rfl, shiftGreater_within _ i2 b _ _ d2 (by omega) (by omega)⟩
          · simp only [hc4, if_false]
            exact ⟨_, rfl, Within.refl _ _ _⟩
        obtain ⟨d3, hd3, hw3⟩ := hstep3
        have hl3 : d3.length = d2.length := hw3.length_eq
        have hw : Within a b d d3 :=
          (hw1.trans (hw2.mono (Nat.le_refl _) (by omega))).trans
            (hw3.mono (by omega) (Nat.le_refl _))
        have hrec := ih i2 d3 (by omega) s2 (by omega)
          (SortedOn.of_within_outside hw3 hs2 (Or.inl (Nat.le_refl _)))
          (hw.lowerBound (Nat.le_refl _) (Nat.le_refl _) h5)
        have hd : partialInsertionSortFunc (onCards lt) a b (steps + 1) i d =
            partialInsertionSortFunc (onCards lt) a b steps i2 d3 := by
          simp only [partialInsertionSortFunc, hi2, hc1, hc2, if_false, hd1, hd2, hd3]
        rw [hd]
        exact ⟨hw.trans hrec.1, hrec.2⟩

/-! ## Heap sort -/

theorem siftDownFunc_spec (lt : Card → Card → Bool) (hlt : StrictWeak lt) (hi first lo : Nat) :
    ∀ (fuel root : Nat) (d : Deck), lo ≤ root → hi - root ≤ fuel → first + hi ≤ d.length →
      (∀ r c, lo ≤ r → r ≠ root → c < hi → (c = 2 * r + 1 ∨ c = 2 * r + 2) →
        lt (cardAt d (first + r)) (cardAt d (first + c)) = false) →
      (∀ r c, lo ≤ r → (root = 2 * r + 1 ∨ root = 2 * r + 2) → c < hi →
        (c = 2 * root + 1 ∨ c = 2 * root + 2) →
        lt (cardAt d (first + r)) (cardAt d (first + c)) = false) →
      Within (first + root) (first + hi) d (siftDownFunc (onCards lt) hi first fuel root d) ∧
      HeapOn lt (siftDownFunc (onCards lt) hi first fuel root d) first lo hi := by
  intro fuel
  induction fuel with
  | zero =>
    intro root d h1 h2 h3 h4 h5
    simp only [siftDownFunc]
    refine ⟨Within.refl _ _ _, ?_⟩
    intro r c hr hc hrc
    by_cases hrr : r = root
    · omega
    · exact h4 r c hr hrr hc hrc
  | succ fuel ih =>
    intro root d h1 h2 h3 h4 h5
    by_cases hc0 : hi ≤ 2 * root + 1
    · have hd : siftDownFunc (onCards lt) hi first (fuel + 1) root d = d := by
        simp only [siftDownFunc, hc0, if_true]
      rw [hd]
      refine ⟨Within.refl _ _ _, ?_⟩
      intro r c hr hc hrc
      by_cases hrr : r = root
      · omega
      · exact h4 r c hr hrr hc hrc
    · have hchild : ∃ child, (if 2 * root + 2 < hi ∧
            onCards lt d (first + (2 * root + 1)) (first + (2 * root + 1) + 1) = true
            then 2 * root + 2 else 2 * root + 1) = child ∧ child < hi ∧
            (child = 2 * root + 1 ∨ child = 2 * root + 2) ∧
            (∀ c, c < hi → (c = 2 * root + 1 ∨ c = 2 * root + 2) →
              lt (cardAt d (first + child)) (cardAt d (first + c)) = false) := by
        by_cases hc1 : 2 * root + 2 < hi ∧
            onCards lt d (first + (2 * root + 1)) (first + (2 * root + 1) + 1) = true
        · refine ⟨2 * root + 2, by simp only [hc1, and_self, if_true], hc1.1, Or.inr rfl, ?_⟩
          intro c hc hcc
          rcases hcc with e | e
          · rw [e]
            have := hc1.2
            rw [onCards_eq lt d _ _ (by omega) (by omega)] at this
            have e2 : first + (2 * root + 1) + 1 = first + (2 * root + 2) := by omega
            rw [e2] at this
            exact hlt.asymm _ _ this
          · rw [e]
            exact hlt.irrefl _
        · refine ⟨2 * root + 1, by simp only [hc1, if_false], by omega, Or.inl rfl, ?_⟩
          intro c hc hcc
          rcases hcc with e | e
          · rw [e]
            exact hlt.irrefl _
          · rw [e]
            have e2 : first + (2 * root + 1) + 1 = first + (2 * root + 2) := by omega
            rw [e2] at hc1
            cases hv : onCards lt d (first + (2 * root + 1)) (first + (2 * root + 2))
            · rw [onCards_eq lt d _ _ (by omega) (by omega)] at hv
              exact hv
            · exact absurd ⟨by omega, hv⟩ hc1
      obtain ⟨child, hch, hc1, hc2, hc3⟩ := hchild
      by_cases hc4 : onCards lt d (first + root) (first + child) = false
      · have hd : siftDownFunc (onCards lt) hi first (fuel + 1) root d = d := by
          simp only [siftDownFunc, hc0, if_false, hch, hc4, if_true]
        rw [hd]
        refine ⟨Within.refl _ _ _, ?_⟩
        intro r c hr hc hrc
        by_cases hrr : r = root
        · subst hrr
          rw [onCards_eq lt d _ _ (by omega) (by omega)] at hc4
          exact hlt.le_trans _ _ _ (hc3 c hc hrc) hc4
        · exact h4 r c hr hrr hc hrc
      · have hless : lt (cardAt d (first + root)) (cardAt d (first + child)) = true := by
          rw [← onCards_eq lt d _ _ (by omega) (by omega)]
          simpa using hc4
        have hv : onCards lt d (first + root) (first + child) = true := by simpa using hc4
        have hd : siftDownFunc (onCards lt) hi first (fuel + 1) root d =
            siftDownFunc (onCards lt) hi first fuel child
              (swapAt d (first + root) (first + child)) := by
          simp [siftDownFunc, hc0, hch, hv]
        rw [hd]
        have hr1 : first + root < d.length := by omega
        have hr2 : first + child < d.length := by omega
        have hsw : Within (first + root) (first + hi) d
            (swapAt d (first + root) (first + child)) :=
          Within.swap _ _ d _ _ h3 (Nat.le_refl _) (by omega) (by omega) (by omega)
        have hrec := ih child (swapAt d (first + root) (first + child)) (by omega) (by omega)
          (by rw [swapAt_length]; exact h3) ?_ ?_
        · exact ⟨hsw.trans (hrec.1.mono (by omega) (Nat.le_refl _)), hrec.2⟩
        · intro r c hr hrc hc hcc
          rw [cardAt_swapAt d _ _ (first + r) hr1 hr2, cardAt_swapAt d _ _ (first + c) hr1 hr2]
          have e1 : ¬ first + r = first + child := by omega
          simp only [e1, if_false]
          by_cases hrr : r = root
          · subst hrr
            have e3 : ¬ first + c = first + r := by omega
            simp only [e3, if_true, if_false]
            by_cases hcc2 : c = child
            · subst hcc2
              simp only [if_true]
              exact hlt.asymm _ _ hless
            · have e2 : ¬ first + c = first + child := by omega
              simp only [e2, if_false]
              exact hc3 c hc hcc
          · have e2 : ¬ first + c = first + child := by omega
            have e3 : ¬ first + r = first + root := by omega
            simp only [e2, e3, if_false]
            by_cases hcr : c = root
            · subst hcr
              simp only [if_true]
              exact h5 r child hr hcc hc1 hc2
            · have e4 : ¬ first + c = first + root := by omega
              simp only [e4, if_false]
              exact h4 r c hr hrr hc hcc
        · intro r c hr hrc hc hcc
          have hrr : r = root := by omega
          subst hrr
          rw [cardAt_swapAt d _ _ (first + r) hr1 hr2, cardAt_swapAt d _ _ (first + c) hr1 hr2]
          have e1 : ¬ first + r = first + child := by omega
          have e2 : ¬ first + c = first + child := by omega
          have e3 : ¬ first + c = first + r := by omega
          simp only [e1, e2, e3, if_true, if_false]
          exact h4 child c (by omega) (by omega) hc hcc

theorem HeapOn.root_max {lt : Card → Card → Bool} (hlt : StrictWeak lt) {d : Deck}
    {first hi : Nat} (h : HeapOn lt d first 0 hi) :
    ∀ r, r < hi → lt (cardAt d first) (cardAt d (first + r)) = false := by
  intro r
  induction r using Nat.strong_induction_on with
  | _ r ih =>
    intro hr
    by_cases h0 : r = 0
    · subst h0
      exact hlt.irrefl _
    · have hq := ih ((r - 1) / 2) (by omega) (by omega)
      have hp := h ((r - 1) / 2) r (Nat.zero_le _) hr (by omega)
      exact hlt.le_trans _ _ _ hp hq

theorem heapBuild_spec (lt : Card → Card → Bool) (hlt : StrictWeak lt) (hi first : Nat) :
    ∀ (i : Nat) (d : Deck), first + hi ≤ d.length → HeapOn lt d first (i + 1) hi →
      Within first (first + hi) d (heapBuild (onCards lt) hi first i d) ∧
      HeapOn lt (heapBuild (onCards lt) hi first i d) first 0 hi := by
  intro i
  induction i with
  | zero =>
    intro d h1 h2
    simp only [heapBuild]
    have := siftDownFunc_spec lt hlt hi first 0 hi 0 d (Nat.le_refl _) (by omega) h1
      (fun r c hr hrr hc hcc => h2 r c (by omega) hc hcc)
      (fun r c hr hrr hc hcc => by omega)
    exact ⟨this.1.mono (by omega) (Nat.le_refl _), this.2⟩
  | succ i ih =>
    intro d h1 h2
    simp only [heapBuild]
    have hs := siftDownFunc_spec lt hlt hi first (i + 1) hi (i + 1) d (Nat.le_refl _)
      (by omega) h1
      (fun r c hr hrr hc hcc => h2 r c (by omega) hc hcc)
      (fun r c hr hrr hc hcc => by omega)
    have hrec := ih (siftDownFunc (onCards lt) hi first hi (i + 1) d)
      (by rw [hs.1.length_eq]; exact h1) hs.2
    exact ⟨(hs.1.mono (by omega) (Nat.le_refl _)).trans hrec.1, hrec.2⟩

theorem heapPop_spec (lt : Card → Card → Bool) (hlt : StrictWeak lt) (first b : Nat) :
    ∀ (n : Nat) (d : Deck), first + n ≤ b → b ≤ d.length → HeapOn lt d first 0 n →
      SortedOn lt d (first + n) b →
      (∀ r s, r < n → first + n ≤ s → s < b →
        lt (cardAt d s) (cardAt d (first + r)) = false) →
      Within first b d (heapPop (onCards lt) first n d) ∧
      SortedOn lt (heapPop (onCards lt) first n d) first b := by
  intro n
  induction n with
  | zero =>
    intro d _ _ _ h4 _
    simp only [heapPop]
    exact ⟨Within.refl _ _ _, h4⟩
  | succ i ih =>
    intro d h1 h2 h3 h4 h5
    simp only [heapPop]
    have hf : first < d.length := by omega
    have hfi : first + i < d.length := by omega
    have hmax := h3.root_max hlt
    have hsw : Within first b d (swapAt d first (first + i)) :=
      Within.swap first b d first (first + i) h2 (Nat.le_refl _) (by omega) (by omega) (by omega)
    have hl1 : (swapAt d first (first + i)).length = d.length := swapAt_length _ _ _
    have hc1 : ∀ k, cardAt (swapAt d first (first + i)) k =
        if k = first + i then cardAt d first else if k = first then cardAt d (first + i)
        else cardAt d k := fun k => cardAt_swapAt d first (first + i) k hf hfi
    generalize hd1 : swapAt d first (first + i) = d1 at hsw hl1 hc1
    have hs := siftDownFunc_spec lt hlt i first 0 i 0 d1 (Nat.le_refl _) (by omega) (by omega)
      ?_ (fun r c hr hrr hc hcc => by omega)
    · have hl2 := hs.1.length_eq
      have hw2 : Within first (first + i) d1 (siftDownFunc (onCards lt) i first i 0 d1) :=
        hs.1.mono (by omega) (Nat.le_refl _)
      generalize hd2 : siftDownFunc (onCards lt) i first i 0 d1 = d2 at hs hl2 hw2
      have hout : ∀ s, first + i ≤ s → cardAt d2 s = cardAt d1 s :=
        fun s hs1 => hw2.cardAt_outside s (Or.inr hs1)
      have hin := hw2.forall_inside
        (fun c => lt (cardAt d first) c = false ∧
          ∀ s, first + (i + 1) ≤ s → s < b → lt (cardAt d s) c = false) ?_
      · have hrec := ih d2 (by omega) (by omega) hs.2 ?_ ?_
        · exact ⟨(hsw.trans (hw2.mono (Nat.le_refl _) (by omega))).trans hrec.1, hrec.2⟩
        · intro p q hp hpq hq
          rw [hout p hp, hout q (by omega), hc1 p, hc1 q]
          have e1 : ¬ q = first + i := by omega
          have e2 : ¬ q = first := by omega
          simp only [e1, e2, if_false]
          by_cases hpi : p = first + i
          · simp only [hpi, if_true]
            have := h5 0 q (by omega) (by omega) hq
            simpa using this
          · have e3 : ¬ p = first := by omega
            simp only [hpi, e3, if_false]
            exact h4 p q (by omega) hpq hq
        · intro r s hr hs1 hs2
          have hP := hin (first + r) (by omega) (by omega)
          rw [hout s hs1, hc1 s]
          by_cases hsi : s = first + i
          · simp only [hsi, if_true]
            exact hP.1
          · have e2 : ¬ s = first := by omega
            simp only [hsi, e2, if_false]
            exact hP.2 s (by omega) hs2
      · intro m hm1 hm2
        rw [hc1 m]
        have e1 : ¬ m = first + i := by omega
        simp only [e1, if_false]
        by_cases hmf : m = first
        · simp only [hmf, if_true]
          exact ⟨hmax i (by omega), fun s hs1 hs2 => h5 i s (by omega) hs1 hs2⟩
        · simp only [hmf, if_false]
          have e : m = first + (m - first) := by omega
          rw [e]
          exact ⟨hmax (m - first) (by omega),
            fun s hs1 hs2 => h5 (m - first) s (by omega) hs1 hs2⟩
    · intro r c hr hrr hc hcc
      rw [hc1 (first + r), hc1 (first + c)]
      have e1 : ¬ first + r = first + i := by omega
      have e2 : ¬ first + r = first := by omega
      have e3 : ¬ first + c = first + i := by omega
      have e4 : ¬ first + c = first := by omega
      simp only [e1, e2, e3, e4, if_false]
      exact h3 r c hr (by omega) hcc

theorem heapSortFunc_spec (lt : Card → Card → Bool) (hlt : StrictWeak lt) (a b : Nat)
    (d : Deck) (hab : a ≤ b) (hb : b ≤ d.length) :
    Within a b d (heapSortFunc (onCards lt) a b d) ∧
    SortedOn lt (heapSortFunc (onCards lt) a b d) a b := by
  unfold heapSortFunc
  have h1 := heapBuild_spec lt hlt (b - a) a ((b - a - 1) / 2) d (by omega)
    (fun r c hr hc hcc => by omega)
  have e : a + (b - a) = b := by omega
  rw [e] at h1
  have h2 := heapPop_spec lt hlt a b (b - a) _ (by omega)
    (by rw [h1.1.length_eq]; exact hb) h1.2 (fun p q hp hpq hq => by omega)
    (fun r s hr hs1 hs2 => by omega)
  exact ⟨h1.1.trans h2.1, h2.2⟩

/-! ## The pattern-defeating quicksort -/

theorem SortedOn.join {lt : Card → Card → Bool} (hlt : StrictWeak lt) {d : Deck}
    {a m b : Nat} (h1 : SortedOn lt d a m) (h2 : SortedOn lt d (m + 1) b)
    (h3 : ∀ k, a ≤ k → k < m → lt (cardAt d k) (cardAt d m) = true)
    (h4 : ∀ k, m < k → k < b → lt (cardAt d k) (cardAt d m) = false) :
    SortedOn lt d a b := by
  intro p q hp hpq hq
  by_cases hq1 : q < m
  · exact h1 p q hp hpq hq1
  · by_cases hq2 : q = m
    · subst hq2
      exact hlt.asymm _ _ (h3 p hp hpq)
    · by_cases hp1 : p < m
      · cases hv : lt (cardAt d q) (cardAt d p)
        · rfl
        · have := hlt.trans _ _ _ hv (h3 p hp hp1)
          rw [h4 q (by omega) hq] at this
          exact absurd this (by simp)
      · by_cases hp2 : p = m
        · subst hp2
          exact h4 q (by omega) hq
        · exact h2 p q (by omega) hpq hq

theorem SortedOn.join_equal {lt : Card → Card → Bool} (hlt : StrictWeak lt) {d : Deck}
    {a mid b : Nat} (x : Card) (h2 : SortedOn lt d mid b)
    (h3 : ∀ k, a ≤ k → k < mid → lt x (cardAt d k) = false)
    (h4 : ∀ k, a ≤ k → k < mid → lt (cardAt d k) x = false)
    (h5 : ∀ k, mid ≤ k → k < b → lt x (cardAt d k) = true) :
    SortedOn lt d a b := by
  intro p q hp hpq hq
  by_cases hq1 : q < mid
  · exact hlt.le_trans _ _ _ (h3 p hp (by omega)) (h4 q (by omega) hq1)
  · by_cases hp1 : p < mid
    · cases hv : lt (cardAt d q) (cardAt d p)
      · rfl
      · have := hlt.trans _ _ _ (h5 q (by omega) hq) hv
        rw [h3 p hp hp1] at this
        exact absurd this (by simp)
    · exact h2 p q (by omega) hpq hq

theorem pdqsortFunc_spec (lt : Card → Card → Bool) (hlt : StrictWeak lt) :
    ∀ (fuel a b limit : Nat) (wb wp : Bool) (d : Deck), a ≤ b → b ≤ d.length →
      b - a ≤ fuel → LowerBound lt d a b →
      Within a b d (pdqsortFunc (onCards lt) fuel a b limit wb wp d) ∧
      SortedOn lt (pdqsortFunc (onCards lt) fuel a b limit wb wp d) a b := by
  intro fuel
  induction fuel with
  | zero =>
    intro a b limit wb wp d hab hb hf hlb
    have h12 : b - a ≤ 12 := by omega
    rw [pdqsortFunc]
    simp only [h12, if_true]
    exact insertionSortFunc_spec lt hlt a b d hab hb
  | succ fuel ih =>
    intro a b limit wb wp d hab hb hf hlb
    by_cases h12 : b - a ≤ 12
    · rw [pdqsortFunc]
      simp only [h12, if_true]
      exact insertionSortFunc_spec lt hlt a b d hab hb
    · rw [pdqsortFunc]
      simp only [h12, if_false]
      by_cases hlim : limit = 0
      · simp only [hlim, if_true]
        exact heapSortFunc_spec lt hlt a b d hab hb
      · simp only [hlim, if_false]
        have hw1 : Within a b d (if wb = true then d else breakPatternsFunc a b d) := by
          split
          · exact Within.refl _ _ _
          · exact breakPatternsFunc_within a b d hb
        generalize (if wb = true then d else breakPatternsFunc a b d) = d1 at hw1 ⊢
        generalize (if wb = true then limit else limit - 1) = limit1
        have hb1 : b ≤ d1.length := by rw [hw1.length_eq]; exact hb
        have hc := choosePivotFunc_range (onCards lt) d1 a b (by omega)
        generalize choosePivotFunc (onCards lt) d1 a b = c at hc ⊢
        have hw2 : Within a b d1
            (if c.2 = SortedHint.decreasingHint then reverseRangeFunc a b d1 else d1) := by
          split
          · exact reverseRangeFunc_within a b d1 (by omega) hb1
          · exact Within.refl _ _ _
        generalize (if c.2 = SortedHint.decreasingHint then reverseRangeFunc a b d1 else d1) = d2
          at hw2 ⊢
        have hb2 : b ≤ d2.length := by rw [hw2.length_eq]; exact hb1
        have hpv : a ≤ (if c.2 = SortedHint.decreasingHint then b - 1 - (c.1 - a) else c.1) ∧
            (if c.2 = SortedHint.decreasingHint then b - 1 - (c.1 - a) else c.1) < b := by
          split <;> omega
        generalize (if c.2 = SortedHint.decreasingHint then b - 1 - (c.1 - a) else c.1) = pivot
          at hpv ⊢
        generalize (if c.2 = SortedHint.decreasingHint then SortedHint.increasingHint
          else c.2) = hint
        have hlb2 : LowerBound lt d2 a b :=
          (hw1.trans hw2).lowerBound (Nat.le_refl _) (Nat.le_refl _) hlb
        have hr : Within a b d2
            (if wb = true ∧ wp = true ∧ hint = SortedHint.increasingHint
              then partialInsertionSortFunc (onCards lt) a b 5 (a + 1) d2 else (false, d2)).2 ∧
            ((if wb = true ∧ wp = true ∧ hint = SortedHint.increasingHint
              then partialInsertionSortFunc (onCards lt) a b 5 (a + 1) d2 else (false, d2)).1 = true →
              SortedOn lt (if wb = true ∧ wp = true ∧ hint = SortedHint.increasingHint
              then partialInsertionSortFunc (onCards lt) a b 5 (a + 1) d2 else (false, d2)).2 a b) := by
          split
          · exact partialInsertionSortFunc_spec lt hlt a b 5 (a + 1) d2 (by omega) (by omega) hb2
              (fun p q hp hpq hq => by omega) hlb2
          · exact ⟨Within.refl _ _ _, fun h => by simp at h⟩
        generalize (if wb = true ∧ wp = true ∧ hint = SortedHint.increasingHint
              then partialInsertionSortFunc (onCards lt) a b 5 (a + 1) d2 else (false, d2)) = r
          at hr ⊢
        have hw3 : Within a b d r.2 := (hw1.trans hw2).trans hr.1
        have hb3 : b ≤ r.2.length := by rw [hw3.length_eq]; exact hb
        have hlb3 : LowerBound lt r.2 a b :=
          hw3.lowerBound (Nat.le_refl _) (Nat.le_refl _) hlb
        by_cases hr1 : r.1 = true
        · simp only [hr1, if_true]
          exact ⟨hw3, hr.2 hr1⟩
        · have hr1f : r.1 = false := by simpa using hr1
          simp only [hr1f, Bool.false_eq_true, if_false]
          by_cases heq : 0 < a ∧ onCards lt r.2 (a - 1) pivot = false
          · simp only [heq, and_self, if_true]
            have hpe := partitionEqualFunc_spec lt hlt a b pivot r.2 (by omega) hb3 hpv.1 hpv.2
            have hge : ∀ k, a ≤ k → k < b → lt (cardAt r.2 k) (cardAt r.2 pivot) = false := by
              intro k hk1 hk2
              have h1 := heq.2
              rw [onCards_eq lt r.2 (a - 1) pivot (by omega) (by omega)] at h1
              exact hlt.le_trans _ _ _ h1 (hlb3 heq.1 k hk1 hk2)
            generalize partitionEqualFunc (onCards lt) a b pivot r.2 = e at hpe ⊢
            obtain ⟨e1, e2, e3, e4, e5⟩ := hpe
            have hge2 : ∀ k, a ≤ k → k < b → lt (cardAt e.2 k) (cardAt r.2 pivot) = false :=
              e1.forall_inside (fun x => lt x (cardAt r.2 pivot) = false) hge
            have hbe : b ≤ e.2.length := by rw [e1.length_eq]; exact hb3
            have hrec := ih e.1 b limit1 wb wp e.2 e3 hbe (by omega) ?_
            · have hwf : Within a b d (pdqsortFunc (onCards lt) fuel e.1 b limit1 wb wp e.2) :=
                (hw3.trans e1).trans (hrec.1.mono (by omega) (Nat.le_refl _))
              refine ⟨hwf, ?_⟩
              apply SortedOn.join_equal hlt (cardAt r.2 pivot) hrec.2
              · intro k hk1 hk2
                rw [hrec.1.cardAt_outside k (Or.inl hk2)]
                exact e4 k hk1 hk2
              · intro k hk1 hk2
                rw [hrec.1.cardAt_outside k (Or.inl hk2)]
                exact hge2 k hk1 (by omega)
              · exact hrec.1.forall_inside (fun x => lt (cardAt r.2 pivot) x = true) e5
            · intro h0 k hk1 hk2
              cases hv : lt (cardAt e.2 k) (cardAt e.2 (e.1 - 1))
              · rfl
              · have := hlt.trans _ _ _ (e5 k hk1 hk2) hv
                rw [e4 (e.1 - 1) (by omega) (by omega)] at this
                exact absurd this (by simp)
          · simp only [heq, if_false]
            have hpp := partitionFunc_spec lt a b pivot r.2 (by omega) hb3 hpv.1 hpv.2
            generalize partitionFunc (onCards lt) a b pivot r.2 = p at hpp ⊢
            obtain ⟨p1, p2, p3, p4, p5⟩ := hpp
            have hbp : b ≤ p.2.2.length := by rw [p1.length_eq]; exact hb3
            have hlbp : LowerBound lt p.2.2 a b :=
              p1.lowerBound (Nat.le_refl _) (Nat.le_refl _) hlb3
            by_cases hside : p.1 - a < b - p.1
            · simp only [hside, if_true]
              have hL := ih a p.1 limit1 true true p.2.2 p2 (by omega) (by omega)
                (fun h0 k hk1 hk2 => hlbp h0 k hk1 (by omega))
              have hbL : b ≤ (pdqsortFunc (onCards lt) fuel a p.1 limit1 true true p.2.2).length := by
                rw [hL.1.length_eq]; exact hbp
              generalize pdqsortFunc (onCards lt) fuel a p.1 limit1 true true p.2.2 = dL
                at hL hbL ⊢
              have hmidL : cardAt dL p.1 = cardAt p.2.2 p.1 :=
                hL.1.cardAt_outside p.1 (Or.inr (Nat.le_refl _))
              have hR := ih (p.1 + 1) b limit1 (decide ((b - a) / 8 ≤ p.1 - a)) p.2.1 dL
                (by omega) hbL (by omega) ?_
              · generalize pdqsortFunc (onCards lt) fuel (p.1 + 1) b limit1
                  (decide ((b - a) / 8 ≤ p.1 - a)) p.2.1 dL = dR at hR ⊢
                have hmidR : cardAt dR p.1 = cardAt p.2.2 p.1 := by
                  rw [hR.1.cardAt_outside p.1 (Or.inl (by omega)), hmidL]
                refine ⟨(hw3.trans p1).trans ((hL.1.mono (Nat.le_refl _) (by omega)).trans
                  (hR.1.mono (by omega) (Nat.le_refl _))), ?_⟩
                apply SortedOn.join hlt (m := p.1)
                · exact SortedOn.of_within_outside hR.1 hL.2 (Or.inl (by omega))
                · exact hR.2
                · intro k hk1 hk2
                  rw [hmidR, hR.1.cardAt_outside k (Or.inl (by omega))]
                  exact hL.1.forall_inside (fun x => lt x (cardAt p.2.2 p.1) = true) p4 k hk1 hk2
                · intro k hk1 hk2
                  rw [hmidR]
                  refine hR.1.forall_inside (fun x => lt x (cardAt p.2.2 p.1) = false) ?_ k
                    (by omega) hk2
                  intro m hm1 hm2
                  rw [hL.1.cardAt_outside m (Or.inr (by omega))]
                  exact p5 m (by omega) hm2
              · intro h0 k hk1 hk2
                have e : p.1 + 1 - 1 = p.1 := by omega
                rw [e, hmidL, hL.1.cardAt_outside k (Or.inr (by omega))]
                exact p5 k (by omega) hk2
            · simp only [hside, if_false]
              have hR := ih (p.1 + 1) b limit1 true true p.2.2 (by omega) hbp (by omega) ?_
              · have hbR : b ≤
                    (pdqsortFunc (onCards lt) fuel (p.1 + 1) b limit1 true true p.2.2).length := by
                  rw [hR.1.length_eq]; exact hbp
                generalize pdqsortFunc (onCards lt) fuel (p.1 + 1) b limit1 true true p.2.2 = dR
                  at hR hbR ⊢
                have hmidR : cardAt dR p.1 = cardAt p.2.2 p.1 :=
                  hR.1.cardAt_outside p.1 (Or.inl (by omega))
                have hL := ih a p.1 limit1 (decide ((b - a) / 8 ≤ b - p.1)) p.2.1 dR p2
                  (by omega) (by omega)
                  (fun h0 k hk1 hk2 =>
                    (hR.1.lowerBound (a := a) (b := b) (by omega) (Nat.le_refl _) hlbp)
                      h0 k hk1 (by omega))
                generalize pdqsortFunc (onCards lt) fuel a p.1 limit1
                  (decide ((b - a) / 8 ≤ b - p.1)) p.2.1 dR = dL at hL ⊢
                have hmidL : cardAt dL p.1 = cardAt p.2.2 p.1 := by
                  rw [hL.1.cardAt_outside p.1 (Or.inr (Nat.le_refl _)), hmidR]
                refine ⟨(hw3.trans p1).trans ((hR.1.mono (by omega) (Nat.le_refl _)).trans
                  (hL.1.mono (Nat.le_refl _) (by omega))), ?_⟩
                apply SortedOn.join hlt (m := p.1)
                · exact hL.2
                · exact SortedOn.of_within_outside hL.1 hR.2 (Or.inr (by omega))
                · intro k hk1 hk2
                  rw [hmidL]
                  refine hL.1.forall_inside (fun x => lt x (cardAt p.2.2 p.1) = true) ?_ k hk1 hk2
                  intro m hm1 hm2
                  rw [hR.1.cardAt_outside m (Or.inl (by omega))]
                  exact p4 m hm1 hm2
                · intro k hk1 hk2
                  rw [hmidL, hL.1.cardAt_outside k (Or.inr (by omega))]
                  exact hR.1.forall_inside (fun x => lt x (cardAt p.2.2 p.1) = false)
                    (fun m hm1 hm2 => p5 m (by omega) hm2) k (by omega) hk2
              · intro h0 k hk1 hk2
                have e : p.1 + 1 - 1 = p.1 := by omega
                rw [e]
                exact p5 k (by omega) hk2

theorem SortedOn.pairwise {lt : Card → Card → Bool} {d : Deck}
    (h : SortedOn lt d 0 d.length) : d.Pairwise (fun x y => lt y x = false) := by
  rw [List.pairwise_iff_getElem]
  intro i j hi hj hij
  have := h i j (Nat.zero_le _) hij hj
  simpa [cardAt, List.getElem?_eq_getElem hi, List.getElem?_eq_getElem hj] using this

theorem pdqSlice_contract : SortSliceContract pdqSlice := by
  intro lt hlt d
  have h := pdqsortFunc_spec lt hlt d.length 0 d.length (bitsLen d.length) true true d
    (Nat.zero_le _) (Nat.le_refl _) (by omega) (fun h0 => by omega)
  have hl : (pdqSlice d (onCards lt)).length = d.length := h.1.length_eq
  refine ⟨h.1.perm, ?_⟩
  apply SortedOn.pairwise
  rw [hl]
  exact h.2

theorem descending_eq_onCards : descending = onCards byKeyDesc := rfl

theorem strictWeak_bySuit : StrictWeak bySuit where
  irrefl a := by simp [bySuit]
  trans a b c h1 h2 := by
    simp only [bySuit, decide_eq_true_eq] at *
    exact lt_trans h1 h2
  incomp a b c h1 h2 h3 h4 := by
    simp only [bySuit, decide_eq_false_iff_not, not_lt] at *
    exact ⟨h3.trans h1, h2.trans h4⟩

theorem strictWeak_byKeyDesc : StrictWeak byKeyDesc := by
  constructor <;> intros <;> simp_all [byKeyDesc] <;> omega

set_option maxRecDepth 100000 in
theorem New_reverse_keys_decreasing :
    (((New []).reverse).map (fun c => - defSort c)).Pairwise (fun x y => x < y) := by
  decide

theorem sort_descending_New (sortSlice : SliceSorter) (hc : SortSliceContract sortSlice) :
    sortSlice (New []) descending = (New []).reverse := by
  have h := hc byKeyDesc strictWeak_byKeyDesc (New [])
  rw [← descending_eq_onCards] at h
  refine sorted_perm_unique (fun c => - defSort c) _ _
    (h.1.trans (List.reverse_perm _).symm) (h.2.imp ?_) New_reverse_keys_decreasing
  intro a b hab
  simpa [byKeyDesc] using hab

/-! ## Sort -/

set_option maxRecDepth 100000 in
/-- C15 as stated fails: `Sort` is not stable. Sorting by suit the hand of
the Diamonds from Ace to Queen followed by the Ace of Spades, thirteen cards,
brings the Ace of Spades to the front and leaves the Diamonds, which the
predicate does not distinguish, in the order Seven, Three, Four, Five, Six,
Ace, Eight, Nine, Ten, Jack, Queen, Two. -/
theorem Sort_not_stable :
    StrictWeak bySuit ∧
    SortWith pdqSlice (onCards bySuit) diamondsThenSpade =
      [⟨Ace, Spade, true, 1⟩, ⟨Seven, Diamond, true, 7⟩, ⟨Three, Diamond, true, 3⟩,
       ⟨Four, Diamond, true, 4⟩, ⟨Five, Diamond, true, 5⟩, ⟨Six, Diamond, true, 6⟩,
       ⟨Ace, Diamond, true, 1⟩, ⟨Eight, Diamond, true, 8⟩, ⟨Nine, Diamond, true, 9⟩,
       ⟨Ten, Diamond, true, 10⟩, ⟨Jack, Diamond, true, 12⟩, ⟨Queen, Diamond, true, 13⟩,
       ⟨Two, Diamond, true, 2⟩] ∧
    ¬ Stable bySuit diamondsThenSpade (SortWith pdqSlice (onCards bySuit) diamondsThenSpade) := by
  have hv : SortWith pdqSlice (onCards bySuit) diamondsThenSpade =
      [⟨Ace, Spade, true, 1⟩, ⟨Seven, Diamond, true, 7⟩, ⟨Three, Diamond, true, 3⟩,
       ⟨Four, Diamond, true, 4⟩, ⟨Five, Diamond, true, 5⟩, ⟨Six, Diamond, true, 6⟩,
       ⟨Ace, Diamond, true, 1⟩, ⟨Eight, Diamond, true, 8⟩, ⟨Nine, Diamond, true, 9⟩,
       ⟨Ten, Diamond, true, 10⟩, ⟨Jack, Diamond, true, 12⟩, ⟨Queen, Diamond, true, 13⟩,
       ⟨Two, Diamond, true, 2⟩] := by decide
  refine ⟨strictWeak_bySuit, hv, ?_⟩
  intro h
  have hs := h ⟨Ace, Diamond, true, 1⟩
  rw [hv] at hs
  exact absurd hs (by decide)

set_option maxRecDepth 100000 in
/-- C15 amended: for every deck `d` and every comparator whose predicate is a
strict weak ordering on the cards, `Sort` reorders `d` by that predicate: the
result is a permutation of `d` in which no card is less than a card before
it; the order of the cards that the predicate does not distinguish is not
kept in general. For the descending default-key comparator,
`New(Sort(descending))[0]` is the last card of `New()`. -/
theorem Sort_sorted_permutation (lt : Card → Card → Bool) (hlt : StrictWeak lt) (d : Deck) :
    (SortWith pdqSlice (onCards lt) d).Perm d ∧
    (SortWith pdqSlice (onCards lt) d).Pairwise (fun a b => lt b a = false) ∧
    (New [SortWith pdqSlice descending])[0]? = (New [])[(New []).length - 1]? := by
  have hd : New [SortWith pdqSlice descending] = (New []).reverse :=
    sort_descending_New pdqSlice pdqSlice_contract
  refine ⟨(pdqSlice_contract lt hlt d).1, (pdqSlice_contract lt hlt d).2, ?_⟩
  rw [hd]
  decide

set_option maxRecDepth 100000 in
/-- Witness for C15: the thirteen cards of the counterexample, sorted by suit. -/
theorem Sort_sorted_permutation_witness :
    StrictWeak bySuit ∧
    (SortWith pdqSlice (onCards bySuit) diamondsThenSpade).Perm diamondsThenSpade ∧
    (SortWith pdqSlice (onCards bySuit) diamondsThenSpade).Pairwise
      (fun a b => bySuit b a = false) ∧
    (SortWith pdqSlice (onCards bySuit) diamondsThenSpade).map (fun c => c.Suit) =
      [Spade, Diamond, Diamond, Diamond, Diamond, Diamond, Diamond, Diamond, Diamond,
       Diamond, Diamond, Diamond, Diamond] :=
  ⟨strictWeak_bySuit,
   (Sort_sorted_permutation bySuit strictWeak_bySuit diamondsThenSpade).1,
   (Sort_sorted_permutation bySuit strictWeak_bySuit diamondsThenSpade).2.1,
   by decide⟩


end deck
